import Mathlib

/-!
Shallow embedding of `src/bin/day05.rs` (interval remapping through chained
mapping tables) and proofs about it.

Modelling conventions:
* `usize` is modelled as unbounded `Nat` (the spec's no-overflow precondition);
  the one place the program checks for under/overflow itself
  (`checked_add_signed`) is modelled faithfully with an `Option`.
* Rust panics (`expect`, `unwrap`, `unreachable!`, `panic!`) are modelled as
  `Except.error` with a `Crash` value naming the panic site.
* `Vec<Range<usize>>` used as a stack (`pop` from the back, `push` to the back)
  is modelled as a `List` whose head is the top of the stack; the initial
  vector is therefore reversed before entering the loop.
* Local variables of the Rust code (`offset`, `inside`, `left_outside`, ...)
  are inlined at their use sites.
* Strings are modelled as `List Char`.
-/

namespace Day05

/-- Rust `std::ops::Range<usize>`: the half-open interval `start..stop`
(`stop` is Rust's `end`, a Lean keyword). -/
structure Range where
  start : Nat
  stop : Nat
deriving DecidableEq, Repr

/-- `Range::len` for `Range<usize>` (`0` when `stop ≤ start`, as for Rust's
`ExactSizeIterator::len` on an exhausted range). -/
def Range.len (r : Range) : Nat := r.stop - r.start

/-- The panic sites of `day05.rs`. -/
inductive Crash where
  /-- `expect("seed.start overflowed")` in `adjust_range` -/
  | seedStartOverflowed
  /-- `expect("seed.end overflowed")` in `adjust_range` -/
  | seedEndOverflowed
  /-- `unreachable!()` at the end of `MapLine::try_translate` -/
  | unreachableCode
  /-- `panic!("unexpected amount of seeds! ...")` in `solve` -/
  | seedCountMismatch
  /-- `.unwrap()` on the result of `min_by_key` in `solve` -/
  | noRanges
  /-- `.unwrap()` on `strip_prefix("seeds: ")` in `Seeds::from_ranges_str` -/
  | missingSeedsMarker
deriving DecidableEq, Repr

/-- Rust `usize::checked_add_signed` (with `usize` as unbounded `Nat`):
`none` exactly when the result would be negative. -/
def checked_add_signed (n : Nat) (offset : Int) : Option Nat :=
  if 0 ≤ (n : Int) + offset then some ((n : Int) + offset).toNat else none

/-- `fn adjust_range(range: Range<usize>, offset: isize) -> Range<usize>`.
For a non-negative offset both endpoints are shifted up; for a negative one
the program uses `checked_add_signed(..).expect(..)`, which panics when an
endpoint would become negative. -/
def adjust_range (range : Range) (offset : Int) : Except Crash Range :=
  if 0 ≤ offset then
    .ok ⟨range.start + offset.toNat, range.stop + offset.toNat⟩
  else
    match checked_add_signed range.start offset with
    | none => .error .seedStartOverflowed
    | some s =>
      match checked_add_signed range.stop offset with
      | none => .error .seedEndOverflowed
      | some e => .ok ⟨s, e⟩

/-- `struct MapLine { dst: Range<usize>, src: Range<usize> }` -/
structure MapLine where
  dst : Range
  src : Range
deriving DecidableEq, Repr

/-- `MapLine::try_translate`: `Ok none` models Rust's `None` (no overlap),
`Ok (some changed)` models `Some(changed)` where the `Bool` is the `ready`
flag, and `.error` models a panic inside the call.  The Rust locals
`offset = dst.start - src.start`, `inside`, `left_outside`, `right_outside`
and `outside` are inlined. -/
def MapLine.try_translate (self : MapLine) (seeds : Range) :
    Except Crash (Option (List (Range × Bool))) :=
  if seeds.stop ≤ self.src.start ∨ seeds.start ≥ self.src.stop then
    .ok none
  else if self.src.start ≤ seeds.start ∧ self.src.stop ≥ seeds.stop then
    -- seeds fully contained within the source area
    match adjust_range seeds ((self.dst.start : Int) - (self.src.start : Int)) with
    | .error e => .error e
    | .ok r => .ok (some [(r, true)])
  else if seeds.start < self.src.start ∧ seeds.stop > self.src.stop then
    -- seeds larger than the area: 3-way split
    match adjust_range ⟨self.src.start, self.src.stop⟩
        ((self.dst.start : Int) - (self.src.start : Int)) with
    | .error e => .error e
    | .ok r => .ok (some [(⟨seeds.start, self.src.start⟩, false), (r, true),
        (⟨self.src.stop, seeds.stop⟩, false)])
  else if seeds.stop > self.src.start ∧ seeds.start < self.src.start then
    -- left side out of the range
    match adjust_range ⟨self.src.start, seeds.stop⟩
        ((self.dst.start : Int) - (self.src.start : Int)) with
    | .error e => .error e
    | .ok r => .ok (some [(r, true), (⟨seeds.start, self.src.start⟩, false)])
  else if seeds.start < self.src.stop ∧ seeds.stop > self.src.stop then
    -- right side out of the range
    match adjust_range ⟨seeds.start, self.src.stop⟩
        ((self.dst.start : Int) - (self.src.start : Int)) with
    | .error e => .error e
    | .ok r => .ok (some [(r, true), (⟨self.src.stop, seeds.stop⟩, false)])
  else
    .error .unreachableCode

/-- The overlap test of `try_translate`, as a proposition: the negation of its
early-return guard. -/
def overlaps (t : MapLine) (seeds : Range) : Prop :=
  t.src.start < seeds.stop ∧ seeds.start < t.src.stop

instance (t : MapLine) (seeds : Range) : Decidable (overlaps t seeds) := by
  unfold overlaps; infer_instance

/-- The translation offset `dst.start - src.start` of a mapping rule. -/
def offsetOf (t : MapLine) : Int := (t.dst.start : Int) - (t.src.start : Int)

/-- The intersection of a seed range with the source range of a rule. -/
def interPiece (t : MapLine) (seeds : Range) : Range :=
  ⟨max seeds.start t.src.start, min seeds.stop t.src.stop⟩

/-- The (at most two) pass-through parts a rule splits off a seed range:
the part left of the source range and the part right of it. -/
def passPieces (t : MapLine) (seeds : Range) : List Range :=
  (if seeds.start < t.src.start then [⟨seeds.start, t.src.start⟩] else []) ++
    (if t.src.stop < seeds.stop then [⟨t.src.stop, seeds.stop⟩] else [])

/-- `adjust_range` can only fail with one of its two overflow panics. -/
theorem adjust_range_error_ne {range : Range} {offset : Int} {e : Crash}
    (h : adjust_range range offset = .error e) : e ≠ Crash.unreachableCode := by
  unfold adjust_range checked_add_signed at h
  by_cases ho : 0 ≤ offset
  · rw [if_pos ho] at h; cases h
  · rw [if_neg ho] at h
    by_cases ha : 0 ≤ (range.start : Int) + offset
    · rw [if_pos ha] at h
      by_cases hb : 0 ≤ (range.stop : Int) + offset
      · rw [if_pos hb] at h; simp at h
      · rw [if_neg hb] at h
        simp only [Except.error.injEq] at h
        rw [← h]
        intro hc; cases hc
    · rw [if_neg ha] at h
      simp only [Except.error.injEq] at h
      rw [← h]
      intro hc; cases hc

/-- Master case analysis of `try_translate`: either the ranges do not overlap
and the rule passes (`Ok none`); or they overlap and the result is, up to
permutation, the adjusted intersection (marked ready) together with the
pass-through pieces (not ready); or they overlap and adjusting the
intersection panics, and that panic — never the final `unreachable!()` — is
propagated. -/
theorem try_translate_spec (t : MapLine) (seeds : Range) :
    (¬ overlaps t seeds ∧ t.try_translate seeds = .ok none) ∨
      (overlaps t seeds ∧ ∃ r, adjust_range (interPiece t seeds) (offsetOf t) = .ok r ∧
        ∃ changed, t.try_translate seeds = .ok (some changed) ∧
          changed.Perm ((r, true) :: (passPieces t seeds).map (fun q => (q, false)))) ∨
      (overlaps t seeds ∧ ∃ e, t.try_translate seeds = .error e ∧
        e ≠ Crash.unreachableCode ∧
        adjust_range (interPiece t seeds) (offsetOf t) = .error e) := by
  have e0 : t.try_translate seeds =
      (if seeds.stop ≤ t.src.start ∨ seeds.start ≥ t.src.stop then
        .ok none
      else if t.src.start ≤ seeds.start ∧ t.src.stop ≥ seeds.stop then
        match adjust_range seeds ((t.dst.start : Int) - (t.src.start : Int)) with
        | .error e => .error e
        | .ok r => .ok (some [(r, true)])
      else if seeds.start < t.src.start ∧ seeds.stop > t.src.stop then
        match adjust_range ⟨t.src.start, t.src.stop⟩
            ((t.dst.start : Int) - (t.src.start : Int)) with
        | .error e => .error e
        | .ok r => .ok (some [(⟨seeds.start, t.src.start⟩, false), (r, true),
            (⟨t.src.stop, seeds.stop⟩, false)])
      else if seeds.stop > t.src.start ∧ seeds.start < t.src.start then
        match adjust_range ⟨t.src.start, seeds.stop⟩
            ((t.dst.start : Int) - (t.src.start : Int)) with
        | .error e => .error e
        | .ok r => .ok (some [(r, true), (⟨seeds.start, t.src.start⟩, false)])
      else if seeds.start < t.src.stop ∧ seeds.stop > t.src.stop then
        match adjust_range ⟨seeds.start, t.src.stop⟩
            ((t.dst.start : Int) - (t.src.start : Int)) with
        | .error e => .error e
        | .ok r => .ok (some [(r, true), (⟨t.src.stop, seeds.stop⟩, false)])
      else
        .error .unreachableCode) := rfl
  by_cases h0 : seeds.stop ≤ t.src.start ∨ seeds.start ≥ t.src.stop
  · rw [if_pos h0] at e0
    left
    exact ⟨fun hov => by unfold overlaps at hov; omega, e0⟩
  · rw [if_neg h0] at e0
    have hov : overlaps t seeds := by unfold overlaps; omega
    have hoff : (t.dst.start : Int) - (t.src.start : Int) = offsetOf t := rfl
    rw [hoff] at e0
    by_cases h1 : t.src.start ≤ seeds.start ∧ t.src.stop ≥ seeds.stop
    · rw [if_pos h1] at e0
      have hip : interPiece t seeds = seeds := by
        unfold interPiece
        have ha : max seeds.start t.src.start = seeds.start := by omega
        have hb : min seeds.stop t.src.stop = seeds.stop := by omega
        rw [ha, hb]
      have hpp : passPieces t seeds = [] := by
        unfold passPieces
        rw [if_neg (by omega), if_neg (by omega)]
        rfl
      rw [hip, hpp]
      cases hadj : adjust_range seeds (offsetOf t) with
      | error e =>
        rw [hadj] at e0
        exact Or.inr (Or.inr ⟨hov, e, e0, adjust_range_error_ne hadj, rfl⟩)
      | ok r =>
        rw [hadj] at e0
        exact Or.inr (Or.inl ⟨hov, r, rfl, [(r, true)], e0, by rfl⟩)
    · rw [if_neg h1] at e0
      by_cases h2 : seeds.start < t.src.start ∧ seeds.stop > t.src.stop
      · rw [if_pos h2] at e0
        have hip : interPiece t seeds = ⟨t.src.start, t.src.stop⟩ := by
          unfold interPiece
          simp only [Range.mk.injEq]
          constructor <;> omega
        have hpp : passPieces t seeds =
            [⟨seeds.start, t.src.start⟩, ⟨t.src.stop, seeds.stop⟩] := by
          unfold passPieces
          rw [if_pos (by omega), if_pos (by omega)]
          rfl
        rw [hip, hpp]
        cases hadj : adjust_range (⟨t.src.start, t.src.stop⟩ : Range) (offsetOf t) with
        | error e =>
          rw [hadj] at e0
          exact Or.inr (Or.inr ⟨hov, e, e0, adjust_range_error_ne hadj, rfl⟩)
        | ok r =>
          rw [hadj] at e0
          refine Or.inr (Or.inl ⟨hov, r, rfl, _, e0, ?_⟩)
          exact List.Perm.swap _ _ _
      · rw [if_neg h2] at e0
        by_cases h3 : seeds.stop > t.src.start ∧ seeds.start < t.src.start
        · rw [if_pos h3] at e0
          have hip : interPiece t seeds = ⟨t.src.start, seeds.stop⟩ := by
            unfold interPiece
            simp only [Range.mk.injEq]
            constructor <;> omega
          have hpp : passPieces t seeds = [⟨seeds.start, t.src.start⟩] := by
            unfold passPieces
            rw [if_pos (by omega), if_neg (by omega)]
            rfl
          rw [hip, hpp]
          cases hadj : adjust_range (⟨t.src.start, seeds.stop⟩ : Range) (offsetOf t) with
          | error e =>
            rw [hadj] at e0
            exact Or.inr (Or.inr ⟨hov, e, e0, adjust_range_error_ne hadj, rfl⟩)
          | ok r =>
            rw [hadj] at e0
            exact Or.inr (Or.inl ⟨hov, r, rfl, _, e0, by rfl⟩)
        · rw [if_neg h3] at e0
          have h4 : seeds.start < t.src.stop ∧ seeds.stop > t.src.stop := by
            unfold overlaps at hov
            omega
          rw [if_pos h4] at e0
          have hip : interPiece t seeds = ⟨seeds.start, t.src.stop⟩ := by
            unfold interPiece
            simp only [Range.mk.injEq]
            constructor <;> omega
          have hpp : passPieces t seeds = [⟨t.src.stop, seeds.stop⟩] := by
            unfold passPieces
            rw [if_neg (by omega), if_pos (by omega)]
            rfl
          rw [hip, hpp]
          cases hadj : adjust_range (⟨seeds.start, t.src.stop⟩ : Range) (offsetOf t) with
          | error e =>
            rw [hadj] at e0
            exact Or.inr (Or.inr ⟨hov, e, e0, adjust_range_error_ne hadj, rfl⟩)
          | ok r =>
            rw [hadj] at e0
            exact Or.inr (Or.inl ⟨hov, r, rfl, _, e0, by rfl⟩)

/-- `try_translate` returns `Ok none` exactly when the ranges do not overlap. -/
theorem try_translate_ok_none_iff (t : MapLine) (seeds : Range) :
    t.try_translate seeds = .ok none ↔ ¬ overlaps t seeds := by
  rcases try_translate_spec t seeds with ⟨hn, he⟩ | ⟨hov, r, _, changed, he, _⟩ |
    ⟨hov, e, he, _, _⟩
  · exact ⟨fun _ => hn, fun _ => he⟩
  · simp only [he]
    exact iff_of_false (by simp) (not_not_intro hov)
  · simp only [he]
    exact iff_of_false (by simp) (not_not_intro hov)

/-- What a successful split returned by `try_translate` looks like, up to
permutation. -/
theorem try_translate_some_spec {t : MapLine} {seeds : Range}
    {changed : List (Range × Bool)} (h : t.try_translate seeds = .ok (some changed)) :
    overlaps t seeds ∧ ∃ r, adjust_range (interPiece t seeds) (offsetOf t) = .ok r ∧
      changed.Perm ((r, true) :: (passPieces t seeds).map (fun q => (q, false))) := by
  rcases try_translate_spec t seeds with ⟨hn, he⟩ | ⟨hov, r, ha, ch, he, hp⟩ |
    ⟨hov, e, he, _, _⟩
  · rw [h] at he
    simp at he
  · rw [h] at he
    simp only [Except.ok.injEq, Option.some.injEq] at he
    subst he
    exact ⟨hov, r, ha, hp⟩
  · rw [h] at he
    simp at he

/-- A panic propagated out of `try_translate` comes from `adjust_range`,
applied to the overlap of the two ranges. -/
theorem try_translate_error_spec {t : MapLine} {seeds : Range} {e : Crash}
    (h : t.try_translate seeds = .error e) :
    overlaps t seeds ∧ e ≠ Crash.unreachableCode ∧
      adjust_range (interPiece t seeds) (offsetOf t) = .error e := by
  rcases try_translate_spec t seeds with ⟨hn, he⟩ | ⟨hov, r, ha, ch, he, hp⟩ |
    ⟨hov, e', he, hne, ha⟩
  · rw [h] at he
    simp at he
  · rw [h] at he
    simp at he
  · rw [h] at he
    simp only [Except.error.injEq] at he
    subst he
    exact ⟨hov, hne, ha⟩

/-- The one ready piece of a successful split: the overlap of the seed range
with the rule's source range, shifted by the rule's offset, written with
`Nat` arithmetic. -/
def shiftPiece (t : MapLine) (seeds : Range) : Range :=
  ⟨(interPiece t seeds).start - t.src.start + t.dst.start,
    (interPiece t seeds).stop - t.src.start + t.dst.start⟩

/-- When the rule's source range is well-formed and the ranges overlap,
adjusting the intersection never panics and produces `shiftPiece`. -/
theorem adjust_inter_ok {t : MapLine} {seeds : Range}
    (hwf : t.src.start ≤ t.src.stop) (hov : overlaps t seeds) :
    adjust_range (interPiece t seeds) (offsetOf t) = .ok (shiftPiece t seeds) := by
  obtain ⟨hov1, hov2⟩ := hov
  have hs1 : t.src.start ≤ (interPiece t seeds).start := le_max_right _ _
  have hs2 : t.src.start ≤ (interPiece t seeds).stop :=
    le_min (le_of_lt hov1) hwf
  unfold adjust_range checked_add_signed shiftPiece offsetOf
  by_cases ho : (0 : Int) ≤ (t.dst.start : Int) - (t.src.start : Int)
  · rw [if_pos ho]
    simp only [Except.ok.injEq, Range.mk.injEq]
    constructor <;> omega
  · rw [if_neg ho, if_pos (by omega), if_pos (by omega)]
    simp only [Except.ok.injEq, Range.mk.injEq]
    constructor <;> omega

/-- Under a well-formed source range, `try_translate` never panics. -/
theorem try_translate_wf_no_error {t : MapLine} {seeds : Range}
    (hwf : t.src.start ≤ t.src.stop) (e : Crash) :
    t.try_translate seeds ≠ .error e := by
  intro h
  obtain ⟨hov, _, ha⟩ := try_translate_error_spec h
  rw [adjust_inter_ok hwf hov] at ha
  cases ha

/-- Each pass-through piece is strictly shorter than the seed range it was
split from. -/
theorem passPieces_len_lt {t : MapLine} {seeds : Range} (hov : overlaps t seeds) :
    ∀ q ∈ passPieces t seeds, q.len < seeds.len := by
  obtain ⟨hov1, hov2⟩ := hov
  intro q hq
  unfold passPieces at hq
  rw [List.mem_append] at hq
  rcases hq with hq | hq <;> [skip; skip] <;>
    · split at hq
      · simp only [List.mem_singleton] at hq
        subst hq
        simp only [Range.len]
        omega
      · simp at hq

/-- The lengths of the pieces of a successful split sum to the length of the
seed range (for a well-formed source range). -/
theorem split_len_sum {t : MapLine} {seeds : Range}
    (hwf : t.src.start ≤ t.src.stop) (hov : overlaps t seeds) :
    (interPiece t seeds).len + ((passPieces t seeds).map Range.len).sum = seeds.len := by
  obtain ⟨hov1, hov2⟩ := hov
  unfold interPiece passPieces
  by_cases hl : seeds.start < t.src.start
  · by_cases hr : t.src.stop < seeds.stop
    · rw [if_pos hl, if_pos hr]
      simp only [List.map_append, List.map_cons, List.map_nil, List.sum_append,
        List.sum_cons, List.sum_nil, Range.len]
      omega
    · rw [if_pos hl, if_neg hr]
      simp only [List.append_nil, List.map_cons, List.map_nil, List.sum_cons,
        List.sum_nil, Range.len]
      omega
  · by_cases hr : t.src.stop < seeds.stop
    · rw [if_neg hl, if_pos hr]
      simp only [List.nil_append, List.map_cons, List.map_nil, List.sum_cons,
        List.sum_nil, Range.len]
      omega
    · rw [if_neg hl, if_neg hr]
      simp only [List.append_nil, List.map_nil, List.sum_nil, Range.len]
      omega

/-- The `for (range, ready) in changed` loop inside `Map::translate`:
`ready` ranges are pushed onto `out_ranges` (and mark the seed as translated),
the rest are pushed back onto the seed stack. -/
def apply_changed :
    List (Range × Bool) → List Range → List Range → Bool →
      List Range × List Range × Bool
  | [], seed_ranges, out_ranges, was_translated =>
    (seed_ranges, out_ranges, was_translated)
  | (range, ready) :: rest, seed_ranges, out_ranges, was_translated =>
    if ready then apply_changed rest seed_ranges (out_ranges ++ [range]) true
    else apply_changed rest (range :: seed_ranges) out_ranges was_translated

/-- The `for translator in &self.0` loop of `Map::translate`, acting on one
popped seed range; the loop breaks (at the top of its body) once
`was_translated` is set. -/
def translator_loop :
    List MapLine → Range → List Range → List Range → Bool →
      Except Crash (List Range × List Range × Bool)
  | [], _, seed_ranges, out_ranges, was_translated =>
    .ok (seed_ranges, out_ranges, was_translated)
  | translator :: rest, seeds, seed_ranges, out_ranges, was_translated =>
    if was_translated then .ok (seed_ranges, out_ranges, was_translated)
    else
      match translator.try_translate seeds with
      | .error e => .error e
      | .ok none => translator_loop rest seeds seed_ranges out_ranges was_translated
      | .ok (some changed) =>
        match apply_changed changed seed_ranges out_ranges was_translated with
        | (s, o, w) => translator_loop rest seeds s o w

/-- Termination measure for the seed stack of `Map::translate`. -/
def stackMeasure (stack : List Range) : Nat :=
  (stack.map (fun r => 3 ^ r.len)).sum

theorem stackMeasure_nil : stackMeasure [] = 0 := rfl

theorem stackMeasure_cons (r : Range) (stack : List Range) :
    stackMeasure (r :: stack) = 3 ^ r.len + stackMeasure stack := rfl

theorem stackMeasure_append (s t : List Range) :
    stackMeasure (s ++ t) = stackMeasure s + stackMeasure t := by
  induction s with
  | nil => simp [stackMeasure]
  | cons a s ih =>
    rw [List.cons_append, stackMeasure_cons, stackMeasure_cons, ih]
    omega

theorem stackMeasure_reverse (s : List Range) :
    stackMeasure s.reverse = stackMeasure s := by
  unfold stackMeasure
  exact ((s.reverse_perm).map _).sum_eq

/-- The ranges of the `ready = true` entries of a `changed` list, in order. -/
def trueRanges (changed : List (Range × Bool)) : List Range :=
  (changed.filter (fun p => p.2)).map Prod.fst

/-- The ranges of the `ready = false` entries of a `changed` list, in order. -/
def falseRanges (changed : List (Range × Bool)) : List Range :=
  (changed.filter (fun p => !p.2)).map Prod.fst

/-- Whether some entry of a `changed` list is marked ready. -/
def hasTrue (changed : List (Range × Bool)) : Bool := changed.any (fun p => p.2)

/-- Closed form of the `for (range, ready) in changed` loop: ready entries are
appended to the output, the rest are pushed (hence reversed) onto the stack,
and the translated marker records whether some entry was ready. -/
theorem apply_changed_cons_true (range : Range) (rest : List (Range × Bool))
    (stack out : List Range) (wt : Bool) :
    apply_changed ((range, true) :: rest) stack out wt =
      apply_changed rest stack (out ++ [range]) true := rfl

theorem apply_changed_cons_false (range : Range) (rest : List (Range × Bool))
    (stack out : List Range) (wt : Bool) :
    apply_changed ((range, false) :: rest) stack out wt =
      apply_changed rest (range :: stack) out wt := rfl

theorem apply_changed_eq (changed : List (Range × Bool)) :
    ∀ (stack out : List Range) (wt : Bool),
      apply_changed changed stack out wt =
        ((falseRanges changed).reverse ++ stack, out ++ trueRanges changed,
          wt || hasTrue changed) := by
  induction changed with
  | nil => intro stack out wt; simp [apply_changed, falseRanges, trueRanges, hasTrue]
  | cons p rest ih =>
    intro stack out wt
    obtain ⟨range, ready⟩ := p
    cases ready with
    | true =>
      rw [apply_changed_cons_true, ih]
      simp [falseRanges, trueRanges, hasTrue, List.append_assoc]
    | false =>
      rw [apply_changed_cons_false, ih]
      simp [falseRanges, trueRanges, hasTrue, List.append_assoc]

theorem filter_ready_of_pass (l : List Range) :
    (l.map (fun q => (q, false))).filter (fun p => p.2) = [] := by
  induction l with
  | nil => rfl
  | cons a l ih =>
    rw [List.map_cons, List.filter_cons_of_neg (by simp)]
    exact ih

theorem filter_not_ready_of_pass (l : List Range) :
    (l.map (fun q => (q, false))).filter (fun p => !p.2) =
      l.map (fun q => (q, false)) := by
  induction l with
  | nil => rfl
  | cons a l ih =>
    rw [List.map_cons, List.filter_cons_of_pos (by simp)]
    rw [ih]

/-- The components of a successful `try_translate` split: exactly one ready
entry (the adjusted intersection), and pass-through entries that are a
permutation of `passPieces`. -/
theorem try_translate_components {t : MapLine} {seeds : Range}
    {changed : List (Range × Bool)}
    (h : t.try_translate seeds = .ok (some changed)) :
    overlaps t seeds ∧ ∃ r, adjust_range (interPiece t seeds) (offsetOf t) = .ok r ∧
      trueRanges changed = [r] ∧ (falseRanges changed).Perm (passPieces t seeds) := by
  obtain ⟨hov, r, ha, hp⟩ := try_translate_some_spec h
  refine ⟨hov, r, ha, ?_, ?_⟩
  · have hf := hp.filter (fun p => p.2)
    rw [List.filter_cons_of_pos (by rfl), filter_ready_of_pass] at hf
    rw [List.perm_singleton] at hf
    unfold trueRanges
    rw [hf]
    rfl
  · have hf := hp.filter (fun p => !p.2)
    rw [List.filter_cons_of_neg (by simp), filter_not_ready_of_pass] at hf
    unfold falseRanges
    have hmap := hf.map Prod.fst
    rw [List.map_map] at hmap
    have h2 : (passPieces t seeds).map (Prod.fst ∘ fun q => (q, false)) =
        passPieces t seeds := List.map_id' _
    rw [h2] at hmap
    exact hmap

/-- A successful split always contains a ready entry. -/
theorem hasTrue_of_some {t : MapLine} {seeds : Range}
    {changed : List (Range × Bool)}
    (h : t.try_translate seeds = .ok (some changed)) : hasTrue changed = true := by
  obtain ⟨_, r, _, hp⟩ := try_translate_some_spec h
  have hm : (r, true) ∈ changed := hp.symm.subset (List.mem_cons_self _ _)
  unfold hasTrue
  rw [List.any_eq_true]
  exact ⟨(r, true), hm, rfl⟩

/-- The weight of the pass-through pieces of one split is below the weight of
the seed range (there are at most two, each strictly shorter). -/
theorem passPieces_weight_lt {t : MapLine} {seeds : Range}
    (hov : overlaps t seeds) :
    stackMeasure (passPieces t seeds) < 3 ^ seeds.len := by
  obtain ⟨hov1, hov2⟩ := hov
  have hpos : 0 < 3 ^ (seeds.len - 1) := Nat.pos_pow_of_pos _ (by norm_num)
  unfold passPieces
  by_cases hl : seeds.start < t.src.start
  · by_cases hr : t.src.stop < seeds.stop
    · rw [if_pos hl, if_pos hr]
      have hL : 1 ≤ seeds.len := by simp only [Range.len]; omega
      have e1 : (⟨seeds.start, t.src.start⟩ : Range).len ≤ seeds.len - 1 := by
        simp only [Range.len]; omega
      have e2 : (⟨t.src.stop, seeds.stop⟩ : Range).len ≤ seeds.len - 1 := by
        simp only [Range.len]; omega
      have b1 : 3 ^ (⟨seeds.start, t.src.start⟩ : Range).len ≤ 3 ^ (seeds.len - 1) :=
        Nat.pow_le_pow_right (by norm_num) e1
      have b2 : 3 ^ (⟨t.src.stop, seeds.stop⟩ : Range).len ≤ 3 ^ (seeds.len - 1) :=
        Nat.pow_le_pow_right (by norm_num) e2
      have e3 : 3 ^ seeds.len = 3 * 3 ^ (seeds.len - 1) := by
        rw [← pow_succ']
        congr 1
        omega
      rw [List.singleton_append, stackMeasure_cons, stackMeasure_cons, stackMeasure_nil]
      omega
    · rw [if_pos hl, if_neg hr, List.append_nil]
      have e1 : (⟨seeds.start, t.src.start⟩ : Range).len < seeds.len := by
        simp only [Range.len]; omega
      have := Nat.pow_lt_pow_right (show 1 < 3 by norm_num) e1
      rw [stackMeasure_cons, stackMeasure_nil]
      omega
  · by_cases hr : t.src.stop < seeds.stop
    · rw [if_neg hl, if_pos hr, List.nil_append]
      have e1 : (⟨t.src.stop, seeds.stop⟩ : Range).len < seeds.len := by
        simp only [Range.len]; omega
      have := Nat.pow_lt_pow_right (show 1 < 3 by norm_num) e1
      rw [stackMeasure_cons, stackMeasure_nil]
      omega
    · rw [if_neg hl, if_neg hr, List.append_nil]
      rw [stackMeasure_nil]
      positivity

/-- Once the translated marker is set, the translator loop breaks
immediately (the check is at the top of the loop body). -/
theorem translator_loop_true (m : List MapLine) (seeds : Range)
    (stack out : List Range) :
    translator_loop m seeds stack out true = .ok (stack, out, true) := by
  cases m <;> rfl

theorem translator_loop_cons_false (t : MapLine) (rest : List MapLine)
    (seeds : Range) (stack out : List Range) :
    translator_loop (t :: rest) seeds stack out false =
      (match t.try_translate seeds with
       | .error e => .error e
       | .ok none => translator_loop rest seeds stack out false
       | .ok (some changed) =>
         match apply_changed changed stack out false with
         | (s, o, w) => translator_loop rest seeds s o w) := rfl

/-- Closed form of the translator loop on a not-yet-translated seed range:
the first rule (in table order) whose source overlaps the seed range — and
only that rule — splits it; its pass-through pieces are pushed onto the seed
stack and its ready piece is appended to the output.  If no rule overlaps,
stack and output are untouched.  A panic of the splitting rule propagates. -/
theorem translator_loop_spec (m : List MapLine) (seeds : Range)
    (stack out : List Range) :
    (m.find? (fun t => decide (overlaps t seeds)) = none ∧
      translator_loop m seeds stack out false = .ok (stack, out, false)) ∨
    (∃ t changed, m.find? (fun t => decide (overlaps t seeds)) = some t ∧
      t.try_translate seeds = .ok (some changed) ∧
      translator_loop m seeds stack out false =
        .ok ((falseRanges changed).reverse ++ stack, out ++ trueRanges changed, true)) ∨
    (∃ t e, m.find? (fun t => decide (overlaps t seeds)) = some t ∧
      t.try_translate seeds = .error e ∧
      translator_loop m seeds stack out false = .error e) := by
  induction m with
  | nil => exact Or.inl ⟨rfl, rfl⟩
  | cons t rest ih =>
    by_cases hov : overlaps t seeds
    · have hfind : (t :: rest).find? (fun t => decide (overlaps t seeds)) = some t :=
        List.find?_cons_of_pos _ (by simpa using hov)
      cases htt : t.try_translate seeds with
      | error e =>
        refine Or.inr (Or.inr ⟨t, e, hfind, htt, ?_⟩)
        rw [translator_loop_cons_false, htt]
      | ok o =>
        cases o with
        | none =>
          exact absurd ((try_translate_ok_none_iff t seeds).mp htt) (not_not_intro hov)
        | some changed =>
          refine Or.inr (Or.inl ⟨t, changed, hfind, htt, ?_⟩)
          have hstep : translator_loop (t :: rest) seeds stack out false =
              (match apply_changed changed stack out false with
               | (s, o, w) => translator_loop rest seeds s o w) := by
            rw [translator_loop_cons_false, htt]
          rw [hstep, apply_changed_eq, Bool.false_or, hasTrue_of_some htt]
          exact translator_loop_true rest seeds _ _
    · have hfind : (t :: rest).find? (fun t => decide (overlaps t seeds)) =
          rest.find? (fun t => decide (overlaps t seeds)) :=
        List.find?_cons_of_neg _ (by simpa using hov)
      have htt : t.try_translate seeds = .ok none :=
        (try_translate_ok_none_iff t seeds).mpr hov
      rw [translator_loop_cons_false, htt, hfind]
      exact ih

/-- Processing one seed range strictly decreases the stack measure: the
popped range weighs `3 ^ len`, what is pushed back weighs strictly less. -/
theorem translator_loop_measure {m : List MapLine} {seeds : Range}
    {stack out : List Range} {s o : List Range} {w : Bool}
    (h : translator_loop m seeds stack out false = .ok (s, o, w)) :
    stackMeasure s < 3 ^ seeds.len + stackMeasure stack := by
  have hpos : 0 < 3 ^ seeds.len := Nat.pos_pow_of_pos _ (by norm_num)
  rcases translator_loop_spec m seeds stack out with ⟨_, he⟩ |
    ⟨t, changed, _, htt, he⟩ | ⟨t, e, _, _, he⟩
  · rw [he] at h
    simp only [Except.ok.injEq, Prod.mk.injEq] at h
    obtain ⟨hs, -, -⟩ := h
    subst hs
    omega
  · rw [he] at h
    simp only [Except.ok.injEq, Prod.mk.injEq] at h
    obtain ⟨hs, -, -⟩ := h
    subst hs
    rw [stackMeasure_append, stackMeasure_reverse]
    obtain ⟨hov, r, _, _, hperm⟩ := try_translate_components htt
    have := hperm.map (fun r => 3 ^ r.len)
    have hsum : stackMeasure (falseRanges changed) = stackMeasure (passPieces t seeds) :=
      this.sum_eq
    have := passPieces_weight_lt hov
    omega
  · rw [he] at h
    cases h

/-- The `while let Some(seeds) = seed_ranges.pop()` loop of `Map::translate`.
The stack is a list with its head as the top; termination is by the
`stackMeasure` weight of the stack. -/
def translate_loop (m : List MapLine) (seed_ranges out_ranges : List Range) :
    Except Crash (List Range) :=
  match seed_ranges with
  | [] => .ok out_ranges
  | seeds :: rest =>
    match h : translator_loop m seeds rest out_ranges false with
    | .error e => .error e
    | .ok (s, o, w) =>
      -- if the range was not translated by any rule it is passed through 1-to-1
      translate_loop m s (if w then o else o ++ [seeds])
termination_by stackMeasure seed_ranges
decreasing_by
  rw [stackMeasure_cons]
  exact translator_loop_measure h

theorem translate_loop_nil (m : List MapLine) (out : List Range) :
    translate_loop m [] out = .ok out := by
  rw [translate_loop]

theorem translate_loop_cons (m : List MapLine) (seeds : Range)
    (rest out : List Range) :
    translate_loop m (seeds :: rest) out =
      (match translator_loop m seeds rest out false with
       | .error e => .error e
       | .ok (s, o, w) => translate_loop m s (if w then o else o ++ [seeds])) := by
  rw [translate_loop]
  cases htl : translator_loop m seeds rest out false with
  | error e => rfl
  | ok res =>
    obtain ⟨s, o, w⟩ := res
    rfl

/-- `struct Map(Vec<MapLine>)` -/
structure Map where
  lines : List MapLine
deriving DecidableEq, Repr

/-- `Map::translate`: run the seed stack (the input vector, popped from the
back, hence reversed here) through the translator loop. -/
def Map.translate (self : Map) (seed_ranges : List Range) :
    Except Crash (List Range) :=
  translate_loop self.lines seed_ranges.reverse []

/-- The same while loop with an explicit iteration budget: `none` when the
budget is exhausted before the stack empties. -/
def translate_fuel (m : List MapLine) :
    Nat → List Range → List Range → Option (Except Crash (List Range)) :=
  fun fuel stack out_ranges =>
    match stack with
    | [] => some (.ok out_ranges)
    | seeds :: rest =>
      match fuel with
      | 0 => none
      | fuel + 1 =>
        match translator_loop m seeds rest out_ranges false with
        | .error e => some (.error e)
        | .ok (s, o, w) => translate_fuel m fuel s (if w then o else o ++ [seeds])

/-- With a budget of at least the stack measure, the fuelled loop finishes
and computes exactly what the (terminating) loop computes. -/
theorem translate_fuel_spec (m : List MapLine) :
    ∀ (fuel : Nat) (stack out : List Range), stackMeasure stack ≤ fuel →
      translate_fuel m fuel stack out = some (translate_loop m stack out) := by
  intro fuel
  induction fuel using Nat.strong_induction_on with
  | _ fuel ih =>
    intro stack out hle
    match stack with
    | [] =>
      rw [translate_loop_nil]
      cases fuel <;> rfl
    | seeds :: rest =>
      have hpos : 0 < 3 ^ seeds.len := Nat.pos_pow_of_pos _ (by norm_num)
      rw [stackMeasure_cons] at hle
      cases fuel with
      | zero =>
        exfalso
        omega
      | succ fuel =>
        have hstep : translate_fuel m (fuel + 1) (seeds :: rest) out =
            (match translator_loop m seeds rest out false with
             | .error e => some (.error e)
             | .ok (s, o, w) =>
               translate_fuel m fuel s (if w then o else o ++ [seeds])) := rfl
        rw [translate_loop_cons, hstep]
        cases htl : translator_loop m seeds rest out false with
        | error e => rfl
        | ok res =>
          obtain ⟨s, o, w⟩ := res
          have hm := translator_loop_measure htl
          exact ih fuel (by omega) s _ (by omega)

/-- The recursion bound used in `translate_fuel_spec` is exact enough to use
the initial measure itself as the budget. -/
theorem translate_fuel_measure (m : List MapLine) (stack out : List Range) :
    translate_fuel m (stackMeasure stack) stack out =
      some (translate_loop m stack out) :=
  translate_fuel_spec m _ stack out le_rfl

/-- If the fuelled loop finishes within any budget, it computed the loop's
value; this lets concrete runs of `translate_loop` be evaluated through the
structurally recursive `translate_fuel`. -/
theorem translate_loop_of_fuel {m : List MapLine} {fuel : Nat}
    {stack out : List Range} {y : Except Crash (List Range)}
    (h : translate_fuel m fuel stack out = some y) :
    translate_loop m stack out = y := by
  induction fuel generalizing stack out with
  | zero =>
    cases stack with
    | nil =>
      rw [translate_loop_nil]
      exact Option.some.inj h
    | cons seeds rest => cases h
  | succ fuel ih =>
    cases stack with
    | nil =>
      rw [translate_loop_nil]
      exact Option.some.inj h
    | cons seeds rest =>
      have hstep : translate_fuel m (fuel + 1) (seeds :: rest) out =
          (match translator_loop m seeds rest out false with
           | .error e => some (.error e)
           | .ok (s, o, w) =>
             translate_fuel m fuel s (if w then o else o ++ [seeds])) := rfl
      rw [hstep] at h
      rw [translate_loop_cons]
      cases htl : translator_loop m seeds rest out false with
      | error e =>
        rw [htl] at h
        exact Option.some.inj h
      | ok res =>
        obtain ⟨s, o, w⟩ := res
        rw [htl] at h
        exact ih h

/-- `seeds.iter().fold(0, |acc, range| acc + range.len())` of `solve`. -/
def sum_len (ranges : List Range) : Nat :=
  ranges.foldl (fun acc range => acc + range.len) 0

/-- `iter().min_by_key(|&range| range.start.min(range.end))`: the first
element with minimal key, `none` on an empty list. -/
def min_by_key (ranges : List Range) : Option Range :=
  match ranges with
  | [] => none
  | r :: rest =>
    some (rest.foldl (fun best x =>
      if min x.start x.stop < min best.start best.stop then x else best) r)

/-- `fn solve(seeds: Seeds, maps: &[Map]) -> usize`: push the seed ranges
through every map in order, panic if the total length changed, otherwise
return the `start` of the minimal range. -/
def solve (seeds : List Range) (maps : List Map) : Except Crash Nat := do
  let pre_total := sum_len seeds
  let final ← List.foldlM (fun s (map : Map) => map.translate s) seeds maps
  let post_total := sum_len final
  if pre_total ≠ post_total then
    .error .seedCountMismatch
  else
    match min_by_key final with
    | none => .error .noRanges
    | some r => .ok r.start

/-- Rust `char::is_ascii_whitespace`: space, tab, newline, form feed,
carriage return. -/
def is_ascii_whitespace (c : Char) : Bool :=
  (c == ' ') || (c == '\t') || (c == '\n') || (c == Char.ofNat 12) || (c == '\r')

/-- Rust `str::split_ascii_whitespace` on a character list: the maximal
nonempty runs of non-whitespace characters. -/
def split_ascii_whitespace (s : List Char) : List (List Char) :=
  (s.foldr (fun c acc =>
    if is_ascii_whitespace c then [] :: acc
    else
      match acc with
      | [] => [[c]]
      | t :: ts => (c :: t) :: ts) [[]]).filter (fun t => !t.isEmpty)

/-- Rust `usize::from_str` restricted to the digits (with `usize` as
unbounded `Nat`): accumulate decimal digits, reject anything else. -/
def digits_to_nat (acc : Nat) : List Char → Option Nat
  | [] => some acc
  | c :: rest =>
    if c.isDigit then digits_to_nat (acc * 10 + (c.toNat - 48)) rest else none

/-- Rust `str::parse::<usize>()`: an optional leading `+` followed by at
least one decimal digit. -/
def parse_usize (s : List Char) : Option Nat :=
  match s with
  | [] => none
  | '+' :: rest =>
    match rest with
    | [] => none
    | _ => digits_to_nat 0 rest
  | _ => digits_to_nat 0 s

/-- `impl FromStr for MapLine`: split on ASCII whitespace and read, in this
order, `dst_start`, `src_start`, `range_len`; both ranges have length
`range_len`.  Extra tokens after the third are ignored (the iterator is not
exhausted). -/
def MapLine.from_str (s : List Char) : Option MapLine :=
  match split_ascii_whitespace s with
  | dst_start_tok :: src_start_tok :: range_len_tok :: _ =>
    match parse_usize dst_start_tok with
    | none => none
    | some dst_start =>
      match parse_usize src_start_tok with
      | none => none
      | some src_start =>
        match parse_usize range_len_tok with
        | none => none
        | some range_len =>
          some ⟨⟨dst_start, dst_start + range_len⟩,
            ⟨src_start, src_start + range_len⟩⟩
  | _ => none

/-- `s.strip_prefix("seeds: ")` as used by `Seeds::from_ranges_str`. -/
def strip_seeds_marker : List Char → Option (List Char)
  | 's' :: 'e' :: 'e' :: 'd' :: 's' :: ':' :: ' ' :: rest => some rest
  | _ => none

/-- The `while let (Some(Ok(start)), Some(Ok(length))) = (parts.next().., parts.next()..)`
loop of `Seeds::from_ranges_str`: pair consecutive tokens into
`start..start+length` ranges, stopping at the first pair that is incomplete
or fails to parse. -/
def pair_loop : List (List Char) → List Range
  | t1 :: t2 :: rest =>
    match parse_usize t1, parse_usize t2 with
    | some start, some length => ⟨start, start + length⟩ :: pair_loop rest
    | _, _ => []
  | _ => []

/-- `Seeds::from_ranges_str` (the `Seeds` wrapper is modelled as the bare
list): strip the `"seeds: "` marker (panicking if absent, per `.unwrap()`),
split the rest on ASCII whitespace and pair up the tokens. -/
def Seeds.from_ranges_str (s : List Char) : Except Crash (List Range) :=
  match strip_seeds_marker s with
  | none => .error .missingSeedsMarker
  | some rest => .ok (pair_loop (split_ascii_whitespace rest))

end Day05

namespace Day05

/-- The translator loop only stacks new pieces on top of the given stack and
appends new output to the given output; the pieces themselves depend only on
the map and the seed range. -/
theorem translator_loop_frame (m : List MapLine) (seeds : Range) :
    ∀ (stack out : List Range),
      translator_loop m seeds stack out false =
        (translator_loop m seeds [] [] false).map
          (fun r => (r.1 ++ stack, out ++ r.2.1, r.2.2)) := by
  induction m with
  | nil =>
    intro stack out
    simp [translator_loop, Except.map]
  | cons t rest ih =>
    intro stack out
    rw [translator_loop_cons_false t rest seeds stack out,
      translator_loop_cons_false t rest seeds [] []]
    cases htt : t.try_translate seeds with
    | error e => rfl
    | ok o =>
      cases o with
      | none => exact ih stack out
      | some changed =>
        dsimp only
        rw [apply_changed_eq, apply_changed_eq]
        dsimp only
        rw [Bool.false_or, hasTrue_of_some htt, translator_loop_true,
          translator_loop_true]
        simp [Except.map]

end Day05

namespace Day05

/-- The output list only accumulates: running the loop with initial output
`out` yields `out ++` whatever the loop produces from the stack alone. -/
theorem translate_loop_out (m : List MapLine) :
    ∀ (n : Nat) (stack : List Range), stackMeasure stack ≤ n →
      ∀ (out : List Range),
        translate_loop m stack out =
          (translate_loop m stack []).map (fun res => out ++ res) := by
  intro n
  induction n using Nat.strong_induction_on with
  | _ n ih =>
    intro stack hle out
    cases stack with
    | nil =>
      rw [translate_loop_nil, translate_loop_nil]
      simp [Except.map]
    | cons seeds rest =>
      have hpos : 0 < 3 ^ seeds.len := Nat.pos_pow_of_pos _ (by norm_num)
      rw [stackMeasure_cons] at hle
      rw [translate_loop_cons, translate_loop_cons,
        translator_loop_frame m seeds rest out, translator_loop_frame m seeds rest []]
      cases hB : translator_loop m seeds [] [] false with
      | error e => rfl
      | ok r =>
        obtain ⟨p, q, w⟩ := r
        dsimp only [Except.map]
        have hmfr : translator_loop m seeds rest out false = .ok (p ++ rest, out ++ q, w) := by
          rw [translator_loop_frame m seeds rest out, hB]
          rfl
        have hmeas := translator_loop_measure hmfr
        have ih1 := ih (stackMeasure (p ++ rest)) (by omega) (p ++ rest) le_rfl
        rw [ih1 (if w then out ++ q else out ++ q ++ [seeds]),
          ih1 (if w then [] ++ q else [] ++ q ++ [seeds])]
        cases hE : translate_loop m (p ++ rest) [] with
        | error e => rfl
        | ok res =>
          cases w <;> simp [Except.map]

/-- Decomposition: running the loop on a concatenated stack first drains the
top part (whose split-off pieces stay above the bottom part), then the rest. -/
theorem translate_loop_append (m : List MapLine) :
    ∀ (n : Nat) (s₁ : List Range), stackMeasure s₁ ≤ n →
      ∀ (s₂ out : List Range),
        translate_loop m (s₁ ++ s₂) out =
          (translate_loop m s₁ out).bind (fun o => translate_loop m s₂ o) := by
  intro n
  induction n using Nat.strong_induction_on with
  | _ n ih =>
    intro s₁ hle s₂ out
    cases s₁ with
    | nil =>
      rw [List.nil_append, translate_loop_nil]
      rfl
    | cons seeds rest =>
      have hpos : 0 < 3 ^ seeds.len := Nat.pos_pow_of_pos _ (by norm_num)
      rw [stackMeasure_cons] at hle
      rw [List.cons_append, translate_loop_cons, translate_loop_cons,
        translator_loop_frame m seeds (rest ++ s₂) out,
        translator_loop_frame m seeds rest out]
      cases hB : translator_loop m seeds [] [] false with
      | error e => rfl
      | ok r =>
        obtain ⟨p, q, w⟩ := r
        dsimp only [Except.map]
        have hmfr : translator_loop m seeds rest out false = .ok (p ++ rest, out ++ q, w) := by
          rw [translator_loop_frame m seeds rest out, hB]
          rfl
        have hmeas := translator_loop_measure hmfr
        have hassoc : p ++ (rest ++ s₂) = (p ++ rest) ++ s₂ :=
          (List.append_assoc p rest s₂).symm
        rw [hassoc]
        have hm2 : stackMeasure (p ++ rest) ≤ stackMeasure (p ++ rest) := le_rfl
        exact ih (stackMeasure (p ++ rest)) (by omega) (p ++ rest) le_rfl s₂
          (if w then out ++ q else out ++ q ++ [seeds])

end Day05

namespace Day05

/-- Under well-formed source ranges the translator loop never panics. -/
theorem translator_loop_no_error {m : List MapLine} {seeds : Range}
    {stack out : List Range} (hwf : ∀ t ∈ m, t.src.start ≤ t.src.stop) {e : Crash}
    (h : translator_loop m seeds stack out false = .error e) : False := by
  rcases translator_loop_spec m seeds stack out with ⟨_, he⟩ |
    ⟨t, changed, _, _, he⟩ | ⟨t, e', hfind, htt, he⟩
  · rw [he] at h
    cases h
  · rw [he] at h
    cases h
  · exact try_translate_wf_no_error (hwf t (List.mem_of_find?_eq_some hfind)) e' htt

/-- Under well-formed source ranges the translate loop never panics. -/
theorem translate_loop_ok {m : List MapLine}
    (hwf : ∀ t ∈ m, t.src.start ≤ t.src.stop) :
    ∀ (n : Nat) (stack : List Range), stackMeasure stack ≤ n → ∀ (out : List Range),
      ∃ res, translate_loop m stack out = .ok res := by
  intro n
  induction n using Nat.strong_induction_on with
  | _ n ih =>
    intro stack hle out
    cases stack with
    | nil => exact ⟨out, translate_loop_nil m out⟩
    | cons seeds rest =>
      have hpos : 0 < 3 ^ seeds.len := Nat.pos_pow_of_pos _ (by norm_num)
      rw [stackMeasure_cons] at hle
      rw [translate_loop_cons]
      cases htl : translator_loop m seeds rest out false with
      | error e => exact absurd htl (fun h => translator_loop_no_error hwf h)
      | ok r =>
        obtain ⟨s, o, w⟩ := r
        have hmeas := translator_loop_measure htl
        exact ih (stackMeasure s) (by omega) s le_rfl _

/-- The list of ranges one seed range turns into under one map (only
meaningful when the loop does not panic, which `translate_loop_ok`
guarantees for well-formed maps). -/
def gOf (m : List MapLine) (r : Range) : List Range :=
  match translate_loop m [r] [] with
  | .ok res => res
  | .error _ => []

theorem gOf_ok {m : List MapLine} (hwf : ∀ t ∈ m, t.src.start ≤ t.src.stop)
    (r : Range) : translate_loop m [r] [] = .ok (gOf m r) := by
  obtain ⟨res, hres⟩ := translate_loop_ok hwf (stackMeasure [r]) [r] le_rfl []
  unfold gOf
  rw [hres]

/-- For a well-formed map the loop maps each stacked range independently:
the result is the initial output followed by the concatenation of the
per-range results, in stack order. -/
theorem translate_loop_flatMap {m : List MapLine}
    (hwf : ∀ t ∈ m, t.src.start ≤ t.src.stop) :
    ∀ (stack out : List Range),
      translate_loop m stack out = .ok (out ++ stack.flatMap (gOf m)) := by
  intro stack
  induction stack with
  | nil =>
    intro out
    rw [translate_loop_nil]
    simp
  | cons r rest ih =>
    intro out
    have hsplit := translate_loop_append m (stackMeasure [r]) [r] le_rfl rest out
    rw [List.singleton_append] at hsplit
    rw [hsplit]
    have hout := translate_loop_out m (stackMeasure [r]) [r] le_rfl out
    rw [gOf_ok hwf r] at hout
    rw [hout]
    show translate_loop m rest (out ++ gOf m r) = _
    rw [ih (out ++ gOf m r)]
    simp [List.flatMap_cons, List.append_assoc]

/-- A seed range overlapping no rule of the map passes through unchanged. -/
theorem gOf_no_overlap {m : List MapLine} {seeds : Range}
    (hfind : m.find? (fun t => decide (overlaps t seeds)) = none) :
    gOf m seeds = [seeds] := by
  rcases translator_loop_spec m seeds [] [] with ⟨_, he⟩ |
    ⟨t, changed, hf, _, _⟩ | ⟨t, e', hf, _, _⟩
  · have hloop : translate_loop m [seeds] [] = .ok [seeds] := by
      rw [translate_loop_cons, he]
      show translate_loop m [] ([] ++ [seeds]) = .ok [seeds]
      rw [List.nil_append, translate_loop_nil]
    unfold gOf
    rw [hloop]
  · rw [hfind] at hf
    cases hf
  · rw [hfind] at hf
    cases hf

/-- One unfolding of `gOf` at a seed range some rule overlaps: the first
overlapping rule splits it; the ready piece leads, followed by the results
of re-processing the pushed-back pieces (in stack order). -/
theorem gOf_first {m : List MapLine} {seeds : Range} {t : MapLine}
    {changed : List (Range × Bool)}
    (hwf : ∀ t ∈ m, t.src.start ≤ t.src.stop)
    (hfind : m.find? (fun t => decide (overlaps t seeds)) = some t)
    (htt : t.try_translate seeds = .ok (some changed)) :
    gOf m seeds = trueRanges changed ++
      ((falseRanges changed).reverse).flatMap (gOf m) := by
  rcases translator_loop_spec m seeds [] [] with ⟨hf, _⟩ |
    ⟨t', changed', hf, htt', he⟩ | ⟨t', e', hf, htt', _⟩
  · rw [hfind] at hf
    cases hf
  · rw [hfind] at hf
    have ht' : t = t' := Option.some.inj hf
    subst ht'
    rw [htt] at htt'
    have hc : changed = changed' := by simpa using htt'
    subst hc
    have hloop : translate_loop m [seeds] [] =
        .ok (trueRanges changed ++ ((falseRanges changed).reverse).flatMap (gOf m)) := by
      rw [translate_loop_cons, he]
      show translate_loop m ((falseRanges changed).reverse ++ [])
          ([] ++ trueRanges changed) = _
      rw [List.append_nil, List.nil_append, translate_loop_flatMap hwf]
    unfold gOf
    rw [hloop]
    rfl
  · rw [hfind] at hf
    have ht' : t = t' := Option.some.inj hf
    subst ht'
    rw [htt] at htt'
    cases htt'

end Day05

namespace Day05

/-- A successful `adjust_range` preserves the length of the range. -/
theorem adjust_range_ok_len {range : Range} {offset : Int} {r : Range}
    (h : adjust_range range offset = .ok r) : r.len = range.len := by
  unfold adjust_range checked_add_signed at h
  by_cases ho : 0 ≤ offset
  · rw [if_pos ho] at h
    simp only [Except.ok.injEq] at h
    rw [← h]
    simp only [Range.len]
    omega
  · rw [if_neg ho] at h
    by_cases ha : 0 ≤ (range.start : Int) + offset
    · rw [if_pos ha] at h
      by_cases hb : 0 ≤ (range.stop : Int) + offset
      · rw [if_pos hb] at h
        simp only [Except.ok.injEq] at h
        rw [← h]
        simp only [Range.len]
        omega
      · rw [if_neg hb] at h
        simp at h
    · rw [if_neg ha] at h
      simp at h

theorem sum_len_eq (ranges : List Range) :
    sum_len ranges = (ranges.map Range.len).sum := by
  have aux : ∀ (l : List Range) (a : Nat),
      l.foldl (fun acc range => acc + range.len) a = a + (l.map Range.len).sum := by
    intro l
    induction l with
    | nil => intro a; simp
    | cons r rest ih =>
      intro a
      rw [List.foldl_cons, ih, List.map_cons, List.sum_cons]
      omega
  rw [sum_len, aux]
  omega

theorem map_len_sum_flatMap (g : Range → List Range) :
    ∀ (L : List Range), (∀ q ∈ L, ((g q).map Range.len).sum = q.len) →
      ((L.flatMap g).map Range.len).sum = (L.map Range.len).sum := by
  intro L
  induction L with
  | nil => intro; simp
  | cons q rest ih =>
    intro hq
    rw [List.flatMap_cons, List.map_append, List.sum_append,
      hq q (List.mem_cons_self _ _), List.map_cons, List.sum_cons,
      ih (fun p hp => hq p (List.mem_cons_of_mem _ hp))]

/-- One map preserves the total length of each seed range it processes. -/
theorem gOf_len {m : List MapLine} (hwf : ∀ t ∈ m, t.src.start ≤ t.src.stop) :
    ∀ (n : Nat) (r : Range), r.len ≤ n →
      ((gOf m r).map Range.len).sum = r.len := by
  intro n
  induction n using Nat.strong_induction_on with
  | _ n ih =>
    intro r hle
    cases hfind : m.find? (fun t => decide (overlaps t r)) with
    | none =>
      rw [gOf_no_overlap hfind]
      simp
    | some t =>
      have htmem := List.mem_of_find?_eq_some hfind
      have hov : overlaps t r := by
        have := List.find?_some hfind
        simpa using this
      have hwft := hwf t htmem
      cases htt : t.try_translate r with
      | error e => exact absurd htt (try_translate_wf_no_error hwft e)
      | ok o =>
        cases o with
        | none =>
          exact absurd ((try_translate_ok_none_iff t r).mp htt) (not_not_intro hov)
        | some changed =>
          rw [gOf_first hwf hfind htt]
          obtain ⟨-, rr, hadj, htr, hfr⟩ := try_translate_components htt
          rw [htr]
          have hfrev : ((falseRanges changed).reverse).Perm (passPieces t r) :=
            ((falseRanges changed).reverse_perm).trans hfr
          have hflat : (((falseRanges changed).reverse.flatMap (gOf m)).map
              Range.len).sum = ((falseRanges changed).reverse.map Range.len).sum := by
            refine map_len_sum_flatMap (gOf m) _ ?_
            intro q hq
            have hqpass : q ∈ passPieces t r := hfrev.subset hq
            have hqlt : q.len < r.len := passPieces_len_lt hov q hqpass
            exact ih q.len (by omega) q le_rfl
          have hpsum : ((falseRanges changed).reverse.map Range.len).sum =
              ((passPieces t r).map Range.len).sum := (hfrev.map Range.len).sum_eq
          have hrr : rr.len = (interPiece t r).len := adjust_range_ok_len hadj
          have hsplit := split_len_sum hwft hov
          rw [List.map_append, List.sum_append, hflat, hpsum]
          simp only [List.map_cons, List.map_nil, List.sum_cons, List.sum_nil]
          omega

/-- `Map::translate` preserves the total covered length (for a map with
well-formed source ranges, and when no offset adjustment panics). -/
theorem translate_sum_len {m : Map} (hwf : ∀ t ∈ m.lines, t.src.start ≤ t.src.stop)
    {ranges out : List Range} (h : m.translate ranges = .ok out) :
    sum_len out = sum_len ranges := by
  unfold Map.translate at h
  rw [translate_loop_flatMap hwf] at h
  have hout : out = ranges.reverse.flatMap (gOf m.lines) := by
    have h2 := Except.ok.inj h
    rw [List.nil_append] at h2
    exact h2.symm
  subst hout
  rw [sum_len_eq, sum_len_eq]
  rw [map_len_sum_flatMap (gOf m.lines) _
    (fun q _ => gOf_len hwf q.len q le_rfl)]
  exact ((ranges.reverse_perm).map Range.len).sum_eq

end Day05

namespace Day05

/-- Whatever is in the output accumulator stays in the final result. -/
theorem translate_loop_out_sub {m : List MapLine} {stack out res : List Range}
    (h : translate_loop m stack out = .ok res) : ∃ add, res = out ++ add := by
  rw [translate_loop_out m (stackMeasure stack) stack le_rfl out] at h
  cases hE : translate_loop m stack [] with
  | error e =>
    rw [hE] at h
    cases h
  | ok res0 =>
    rw [hE] at h
    exact ⟨res0, (Except.ok.inj h).symm⟩

/-- Any stacked range that overlaps no rule of the map ends up in the result
unchanged (whatever else is on the stack). -/
theorem translate_loop_mem {m : List MapLine} :
    ∀ (n : Nat) (stack : List Range), stackMeasure stack ≤ n →
      ∀ (out res : List Range), translate_loop m stack out = .ok res →
        ∀ r ∈ stack, (∀ t ∈ m, ¬ overlaps t r) → r ∈ res := by
  intro n
  induction n using Nat.strong_induction_on with
  | _ n ih =>
    intro stack hle out res h r hr hno
    cases stack with
    | nil => cases hr
    | cons seeds rest =>
      have hpos : 0 < 3 ^ seeds.len := Nat.pos_pow_of_pos _ (by norm_num)
      rw [stackMeasure_cons] at hle
      rw [translate_loop_cons] at h
      cases htl : translator_loop m seeds rest out false with
      | error e =>
        rw [htl] at h
        cases h
      | ok trip =>
        obtain ⟨s, o, w⟩ := trip
        rw [htl] at h
        have hmeas := translator_loop_measure htl
        rcases List.mem_cons.mp hr with rfl | hrest
        · -- the popped range itself: no rule overlaps it, so it passes through
          have hfind : m.find? (fun t => decide (overlaps t r)) = none := by
            rw [List.find?_eq_none]
            intro t ht
            simp only [decide_eq_true_eq]
            exact hno t ht
          rcases translator_loop_spec m r rest out with ⟨-, he⟩ |
            ⟨t, changed, hf, -, -⟩ | ⟨t, e, hf, -, -⟩
          · rw [he] at htl
            simp only [Except.ok.injEq, Prod.mk.injEq] at htl
            obtain ⟨hs, ho, hw⟩ := htl
            subst hs
            subst ho
            subst hw
            obtain ⟨add, hadd⟩ := translate_loop_out_sub h
            rw [hadd]
            have : r ∈ out ++ [r] := by simp
            exact List.mem_append_left _ this
          · rw [hfind] at hf
            cases hf
          · rw [hfind] at hf
            cases hf
        · -- a deeper range: it is still on the new stack
          have hs_sub : r ∈ s := by
            have hframe := translator_loop_frame m seeds rest out
            rw [hframe] at htl
            cases hB : translator_loop m seeds [] [] false with
            | error e =>
              rw [hB] at htl
              cases htl
            | ok trip0 =>
              obtain ⟨p, q, w0⟩ := trip0
              rw [hB] at htl
              simp only [Except.map, Except.ok.injEq, Prod.mk.injEq] at htl
              obtain ⟨hs, -, -⟩ := htl
              rw [← hs]
              exact List.mem_append_right _ hrest
          exact ih (stackMeasure s) (by omega) s le_rfl _ res h r hs_sub hno

end Day05

namespace Day05

/-- C1: for every mapping table with well-formed source ranges (the shape
`FromStr` produces) and every list of seed ranges, if `Map::translate`
returns (the offset adjustment never leaves `usize`), the sum of the lengths
of the returned ranges equals the sum of the lengths of the inputs; and
consequently the total covered length is preserved across the whole chain of
maps that `solve` applies. -/
theorem claim1_translate_preserves_total_length :
    (∀ (m : Map), (∀ t ∈ m.lines, t.src.start ≤ t.src.stop) →
      ∀ (ranges out : List Range), m.translate ranges = .ok out →
        sum_len out = sum_len ranges) ∧
    (∀ (maps : List Map), (∀ mp ∈ maps, ∀ t ∈ mp.lines, t.src.start ≤ t.src.stop) →
      ∀ (seeds final : List Range),
        List.foldlM (fun s (map : Map) => map.translate s) seeds maps = .ok final →
          sum_len final = sum_len seeds) := by
  constructor
  · intro m hwf ranges out h
    exact translate_sum_len hwf h
  · intro maps
    induction maps with
    | nil =>
      intro _ seeds final h
      rw [List.foldlM_nil] at h
      have hfin : seeds = final := Except.ok.inj h
      rw [hfin]
    | cons mp rest ih =>
      intro hwf seeds final h
      rw [List.foldlM_cons] at h
      cases htr : mp.translate seeds with
      | error e =>
        rw [htr] at h
        cases h
      | ok s' =>
        rw [htr] at h
        have h2 : List.foldlM (fun s (map : Map) => map.translate s) s' rest =
            .ok final := h
        have hsum1 := translate_sum_len (hwf mp (List.mem_cons_self _ _)) htr
        have hsum2 := ih (fun mp' hm => hwf mp' (List.mem_cons_of_mem _ hm))
          s' final h2
        omega

theorem claim1_witness :
    sum_len [⟨57, 70⟩, ⟨81, 95⟩] = sum_len [⟨79, 93⟩, ⟨55, 68⟩] ∧
    sum_len [⟨82, 87⟩] = sum_len [⟨80, 85⟩] := by
  have htr : Map.translate ⟨[⟨⟨50, 52⟩, ⟨98, 100⟩⟩, ⟨⟨52, 100⟩, ⟨50, 98⟩⟩]⟩
      [⟨79, 93⟩, ⟨55, 68⟩] = .ok [⟨57, 70⟩, ⟨81, 95⟩] :=
    @translate_loop_of_fuel _ 10 _ _ _ rfl
  have hchain : List.foldlM (fun s (map : Map) => map.translate s)
      [⟨80, 85⟩] [⟨[⟨⟨52, 100⟩, ⟨50, 98⟩⟩]⟩] = .ok [⟨82, 87⟩] := by
    rw [List.foldlM_cons]
    have h1 : Map.translate ⟨[⟨⟨52, 100⟩, ⟨50, 98⟩⟩]⟩ [⟨80, 85⟩] = .ok [⟨82, 87⟩] :=
      @translate_loop_of_fuel _ 10 _ _ _ rfl
    rw [h1]
    rfl
  exact ⟨claim1_translate_preserves_total_length.1 _ (by decide) _ _ htr,
    claim1_translate_preserves_total_length.2 _ (by decide) _ _ hchain⟩

/-- C5: a seed range that overlaps none of the table's source ranges (in the
sense of the guard in `try_translate`) is passed through unchanged into the
output of `Map::translate`; in particular a table with no rules returns its
input ranges unchanged as a multiset (the loop reverses their order). -/
theorem claim5_no_overlap_pass_through :
    ∀ (m : Map) (ranges res : List Range), m.translate ranges = .ok res →
      ((∀ r ∈ ranges, (∀ t ∈ m.lines, r.stop ≤ t.src.start ∨ t.src.stop ≤ r.start) →
          r ∈ res) ∧
        (m.lines = [] → res.Perm ranges)) := by
  intro m ranges res h
  constructor
  · intro r hr hno
    refine translate_loop_mem (stackMeasure ranges.reverse) ranges.reverse le_rfl
      [] res h r (List.mem_reverse.mpr hr) ?_
    intro t ht hov
    have hov2 : t.src.start < r.stop ∧ r.start < t.src.stop := hov
    rcases hno t ht with hc | hc <;> omega
  · intro hnil
    have hwf : ∀ t ∈ m.lines, t.src.start ≤ t.src.stop := by
      rw [hnil]
      intro t ht
      cases ht
    have hfm := translate_loop_flatMap hwf ranges.reverse []
    unfold Map.translate at h
    rw [hfm] at h
    have hg : ∀ x ∈ ranges.reverse, gOf m.lines x = [x] := by
      intro x hx
      apply gOf_no_overlap
      rw [hnil]
      rfl
    rw [List.flatMap_congr hg, List.flatMap_singleton', List.nil_append] at h
    have hres : res = ranges.reverse := (Except.ok.inj h).symm
    rw [hres]
    exact ranges.reverse_perm

theorem claim5_witness :
    ((⟨10, 20⟩ : Range) ∈ [(⟨62, 63⟩ : Range), ⟨10, 20⟩]) ∧
    ([(⟨1, 2⟩ : Range)]).Perm [⟨1, 2⟩] := by
  have h1 : Map.translate ⟨[⟨⟨52, 100⟩, ⟨50, 98⟩⟩]⟩ [⟨10, 20⟩, ⟨60, 61⟩] =
      .ok [⟨62, 63⟩, ⟨10, 20⟩] := @translate_loop_of_fuel _ 10 _ _ _ rfl
  have h2 : Map.translate ⟨[]⟩ [⟨1, 2⟩] = .ok [⟨1, 2⟩] :=
    @translate_loop_of_fuel _ 10 _ _ _ rfl
  exact ⟨(claim5_no_overlap_pass_through _ _ _ h1).1 _ (by decide) (by decide),
    (claim5_no_overlap_pass_through _ _ _ h2).2 rfl⟩

/-- C8: the `unreachable!()` at the end of `MapLine::try_translate` is never
executed: whatever the rule and the seed range, the function either returns
or panics inside `adjust_range`, never through the final fall-through
branch. -/
theorem claim8_unreachable_is_unreachable :
    ∀ (t : MapLine) (seeds : Range),
      t.try_translate seeds ≠ .error Crash.unreachableCode := by
  intro t seeds h
  obtain ⟨-, hne, -⟩ := try_translate_error_spec h
  exact hne rfl

end Day05

namespace Day05

theorem mem_falseRanges {changed : List (Range × Bool)} {p : Range × Bool}
    (hp : p ∈ changed) (hpf : p.2 = false) : p.1 ∈ falseRanges changed := by
  unfold falseRanges
  refine List.mem_map_of_mem _ (List.mem_filter.mpr ⟨hp, ?_⟩)
  rw [hpf]
  rfl

theorem mem_of_falseRanges {changed : List (Range × Bool)} {q : Range}
    (hq : q ∈ falseRanges changed) :
    ∃ p ∈ changed, p.2 = false ∧ p.1 = q := by
  unfold falseRanges at hq
  obtain ⟨p, hpf, hpq⟩ := List.mem_map.mp hq
  obtain ⟨hpmem, hpred⟩ := List.mem_filter.mp hpf
  refine ⟨p, hpmem, ?_, hpq⟩
  cases hb : p.2
  · rfl
  · rw [hb] at hpred
    cases hpred

/-- C3: `Map::translate` terminates on every input: every pass-through
remainder pushed back onto the seed stack by `try_translate` is strictly
shorter than the range it was split from, and the while loop finishes within
`stackMeasure` iterations, computing exactly `Map::translate`'s value. -/
theorem claim3_translate_terminates :
    (∀ (t : MapLine) (seeds : Range) (changed : List (Range × Bool)),
      t.try_translate seeds = .ok (some changed) →
        ∀ p ∈ changed, p.2 = false → p.1.len < seeds.len) ∧
    (∀ (m : Map) (seed_ranges : List Range),
      translate_fuel m.lines (stackMeasure seed_ranges.reverse)
        seed_ranges.reverse [] = some (m.translate seed_ranges)) := by
  constructor
  · intro t seeds changed htt p hp hpf
    obtain ⟨hov, rr, -, -, hfr⟩ := try_translate_components htt
    exact passPieces_len_lt hov p.1 (hfr.subset (mem_falseRanges hp hpf))
  · intro m sr
    exact translate_fuel_measure m.lines sr.reverse []

theorem claim3_witness :
    (⟨96, 98⟩ : Range).len < (⟨96, 99⟩ : Range).len ∧
    translate_fuel [⟨⟨52, 100⟩, ⟨50, 98⟩⟩] (stackMeasure [(⟨80, 85⟩ : Range)].reverse)
      [(⟨80, 85⟩ : Range)].reverse [] =
      some (Map.translate ⟨[⟨⟨52, 100⟩, ⟨50, 98⟩⟩]⟩ [⟨80, 85⟩]) := by
  refine ⟨?_, claim3_translate_terminates.2 ⟨[⟨⟨52, 100⟩, ⟨50, 98⟩⟩]⟩ [⟨80, 85⟩]⟩
  exact claim3_translate_terminates.1 ⟨⟨50, 52⟩, ⟨98, 100⟩⟩ ⟨96, 99⟩
    [(⟨50, 51⟩, true), (⟨96, 98⟩, false)] rfl (⟨96, 98⟩, false) (by decide) rfl

/-- C4 counterexample: parsing the line "50 98 2" yields the rule
dst = 50..52, src = 98..100 — the first number is the destination start and
the third is the shared length, not source start/source length/destination
start as the claim reads them. -/
theorem claim4_counterexample :
    MapLine.from_str ['5', '0', ' ', '9', '8', ' ', '2'] =
      some ⟨⟨50, 52⟩, ⟨98, 100⟩⟩ ∧
    (MapLine.from_str ['5', '0', ' ', '9', '8', ' ', '2']).map MapLine.src ≠
      some ⟨50, 148⟩ ∧
    (MapLine.from_str ['5', '0', ' ', '9', '8', ' ', '2']).map MapLine.dst ≠
      some ⟨2, 100⟩ := by
  refine ⟨rfl, ?_, ?_⟩ <;> decide

/-- C4 (amended): each line of a mapping table is a triple read in the order
(dst_start, src_start, range_len): the first number on the line is the
destination start, the second the source start, and the third the shared
length, yielding a rule with source range src_start..src_start+range_len and
destination range dst_start..dst_start+range_len. -/
theorem claim4_field_order :
    ∀ (s t1 t2 t3 : List Char) (rest : List (List Char)) (d so l : Nat),
      split_ascii_whitespace s = t1 :: t2 :: t3 :: rest →
      parse_usize t1 = some d →
      parse_usize t2 = some so →
      parse_usize t3 = some l →
      MapLine.from_str s = some ⟨⟨d, d + l⟩, ⟨so, so + l⟩⟩ := by
  intro s t1 t2 t3 rest d so l hsplit h1 h2 h3
  unfold MapLine.from_str
  rw [hsplit]
  dsimp only
  rw [h1]
  dsimp only
  rw [h2]
  dsimp only
  rw [h3]

theorem claim4_witness :
    MapLine.from_str ['5', '2', ' ', '5', '0', ' ', '4', '8'] =
      some ⟨⟨52, 100⟩, ⟨50, 98⟩⟩ :=
  claim4_field_order _ ['5', '2'] ['5', '0'] ['4', '8'] [] 52 50 48
    rfl rfl rfl rfl

end Day05

namespace Day05

/-- The pairing of a list of numbers into (start, length) ranges, as the
claim describes it. -/
def pairsOf : List Nat → List Range
  | a :: b :: rest => ⟨a, a + b⟩ :: pairsOf rest
  | _ => []

theorem pair_loop_cons2 (t1 t2 : List Char) (rest : List (List Char)) :
    pair_loop (t1 :: t2 :: rest) =
      (match parse_usize t1, parse_usize t2 with
       | some start, some length =>
         (⟨start, start + length⟩ : Range) :: pair_loop rest
       | _, _ => []) := rfl

theorem pair_loop_stop_first {t : List Char} (ht : parse_usize t = none)
    (rest : List (List Char)) : pair_loop (t :: rest) = [] := by
  cases rest with
  | nil => rfl
  | cons t2 r =>
    rw [pair_loop_cons2, ht]

theorem pair_loop_stop_second {t1 t2 : List Char} {g : Nat}
    (h1 : parse_usize t1 = some g) (h2 : parse_usize t2 = none)
    (rest : List (List Char)) : pair_loop (t1 :: t2 :: rest) = [] := by
  rw [pair_loop_cons2, h1, h2]

/-- An even run of parsing tokens contributes its pairs and hands the
remaining tokens over unchanged. -/
theorem pair_loop_pairs :
    ∀ (k : Nat) (ns : List Nat) (toks suffix : List (List Char)),
      ns.length ≤ k →
      toks.map parse_usize = ns.map some →
      toks.length % 2 = 0 →
      pair_loop (toks ++ suffix) = pairsOf ns ++ pair_loop suffix := by
  intro k
  induction k with
  | zero =>
    intro ns toks suffix hlen hmap heven
    have hns : ns = [] := List.length_eq_zero.mp (by omega)
    subst hns
    have htoks : toks = [] := by
      cases toks with
      | nil => rfl
      | cons a b => simp at hmap
    subst htoks
    simp [pairsOf]
  | succ k ih =>
    intro ns toks suffix hlen hmap heven
    cases toks with
    | nil =>
      have hns : ns = [] := by
        cases ns with
        | nil => rfl
        | cons a b => simp at hmap
      subst hns
      simp [pairsOf]
    | cons t1 ttail =>
      cases ttail with
      | nil => simp at heven
      | cons t2 tr =>
        cases ns with
        | nil => simp at hmap
        | cons n1 ns1 =>
          cases ns1 with
          | nil => simp at hmap
          | cons n2 nr =>
            simp only [List.map_cons, List.cons.injEq] at hmap
            obtain ⟨hp1, hp2, hmap2⟩ := hmap
            rw [List.cons_append, List.cons_append, pair_loop_cons2, hp1, hp2]
            dsimp only
            have hpairs : pairsOf (n1 :: n2 :: nr) =
                ⟨n1, n1 + n2⟩ :: pairsOf nr := rfl
            rw [hpairs, List.cons_append]
            have hlen2 : nr.length ≤ k := by
              simp only [List.length_cons] at hlen
              omega
            have heven2 : tr.length % 2 = 0 := by
              simp only [List.length_cons] at heven
              omega
            rw [ih nr tr suffix hlen2 hmap2 heven2]

/-- C10: `Seeds::from_ranges_str` never fails on a line starting with
"seeds: "; it pairs consecutive numbers as (start, length) ranges
`start..start+length`, stops at the first token that does not parse as an
integer (in either position of a pair), and silently ignores a trailing
unpaired number when the token count is odd. -/
theorem claim10_from_ranges_str :
    (∀ rest : List Char,
      Seeds.from_ranges_str
          ('s' :: 'e' :: 'e' :: 'd' :: 's' :: ':' :: ' ' :: rest) =
        .ok (pair_loop (split_ascii_whitespace rest))) ∧
    (∀ (toks : List (List Char)) (ns : List Nat),
      toks.map parse_usize = ns.map some → toks.length % 2 = 0 →
      pair_loop toks = pairsOf ns) ∧
    (∀ (toks : List (List Char)) (ns : List Nat) (t : List Char),
      toks.map parse_usize = ns.map some → toks.length % 2 = 0 →
      pair_loop (toks ++ [t]) = pairsOf ns) ∧
    (∀ (toks : List (List Char)) (ns : List Nat) (t : List Char)
        (rest : List (List Char)),
      toks.map parse_usize = ns.map some → toks.length % 2 = 0 →
      parse_usize t = none →
      pair_loop (toks ++ t :: rest) = pairsOf ns) ∧
    (∀ (toks : List (List Char)) (ns : List Nat) (t1 t2 : List Char) (g : Nat)
        (rest : List (List Char)),
      toks.map parse_usize = ns.map some → toks.length % 2 = 0 →
      parse_usize t1 = some g → parse_usize t2 = none →
      pair_loop (toks ++ t1 :: t2 :: rest) = pairsOf ns) := by
  refine ⟨fun rest => rfl, ?_, ?_, ?_, ?_⟩
  · intro toks ns hmap heven
    have h0 := pair_loop_pairs ns.length ns toks [] le_rfl hmap heven
    have h1 : pair_loop ([] : List (List Char)) = [] := rfl
    rw [h1, List.append_nil, List.append_nil] at h0
    exact h0
  · intro toks ns t hmap heven
    rw [pair_loop_pairs ns.length ns toks [t] le_rfl hmap heven]
    have hone : pair_loop [t] = [] := rfl
    rw [hone, List.append_nil]
  · intro toks ns t rest hmap heven ht
    rw [pair_loop_pairs ns.length ns toks (t :: rest) le_rfl hmap heven,
      pair_loop_stop_first ht, List.append_nil]
  · intro toks ns t1 t2 g rest hmap heven h1 h2
    rw [pair_loop_pairs ns.length ns toks (t1 :: t2 :: rest) le_rfl hmap heven,
      pair_loop_stop_second h1 h2, List.append_nil]

theorem claim10_witness :
    Seeds.from_ranges_str
        ('s' :: 'e' :: 'e' :: 'd' :: 's' :: ':' :: ' ' :: "79 14 55 13 7".toList) =
      .ok (pair_loop (split_ascii_whitespace ("79 14 55 13 7".toList))) ∧
    pair_loop [['7', '9'], ['1', '4']] = pairsOf [79, 14] ∧
    pair_loop [['7', '9'], ['1', '4'], ['7']] = pairsOf [79, 14] ∧
    pair_loop [['7', '9'], ['1', '4'], ['x'], ['1']] = pairsOf [79, 14] :=
  ⟨claim10_from_ranges_str.1 ("79 14 55 13 7".toList),
    claim10_from_ranges_str.2.1 _ [79, 14] rfl rfl,
    claim10_from_ranges_str.2.2.1 [['7', '9'], ['1', '4']] [79, 14] ['7'] rfl rfl,
    claim10_from_ranges_str.2.2.2.1 [['7', '9'], ['1', '4']] [79, 14] ['x']
      [['1']] rfl rfl rfl⟩

end Day05

namespace Day05

/-- Membership of a point in a half-open range. -/
def memR (x : Nat) (r : Range) : Prop := r.start ≤ x ∧ x < r.stop

theorem disjoint_ranges {A B : Range}
    (h : A.stop ≤ B.start ∨ B.stop ≤ A.start) :
    ∀ x : Nat, ¬(memR x A ∧ memR x B) := by
  intro x hx
  obtain ⟨⟨h1, h2⟩, h3, h4⟩ := hx
  omega

theorem passPieces_bounds {t : MapLine} {seeds : Range} (hov : overlaps t seeds) :
    ∀ q ∈ passPieces t seeds,
      seeds.start ≤ q.start ∧ q.stop ≤ seeds.stop ∧
        (q.stop ≤ t.src.start ∨ t.src.stop ≤ q.start) := by
  obtain ⟨hov1, hov2⟩ := hov
  intro q hq
  unfold passPieces at hq
  rw [List.mem_append] at hq
  rcases hq with hq | hq
  · split at hq
    · simp only [List.mem_singleton] at hq
      subst hq
      exact ⟨le_rfl, show t.src.start ≤ seeds.stop by omega,
        Or.inl (show t.src.start ≤ t.src.start from le_rfl)⟩
    · simp at hq
  · split at hq
    · simp only [List.mem_singleton] at hq
      subst hq
      exact ⟨show seeds.start ≤ t.src.stop by omega, le_rfl,
        Or.inr (show t.src.stop ≤ t.src.stop from le_rfl)⟩
    · simp at hq

theorem passPieces_cover {t : MapLine} {seeds : Range}
    (hov : overlaps t seeds) :
    ∀ x : Nat, memR x seeds ↔
      (memR x (interPiece t seeds) ∨ ∃ q ∈ passPieces t seeds, memR x q) := by
  obtain ⟨hov1, hov2⟩ := hov
  intro x
  unfold memR interPiece passPieces
  by_cases hl : seeds.start < t.src.start <;> by_cases hr : t.src.stop < seeds.stop
  · rw [if_pos hl, if_pos hr]
    simp only [List.singleton_append, List.mem_cons, List.mem_singleton,
      List.not_mem_nil, or_false, exists_eq_or_imp, exists_eq_left]
    omega
  · rw [if_pos hl, if_neg hr, List.append_nil]
    simp only [List.mem_singleton, exists_eq_left]
    omega
  · rw [if_neg hl, if_pos hr, List.nil_append]
    simp only [List.mem_singleton, exists_eq_left]
    omega
  · rw [if_neg hl, if_neg hr, List.append_nil]
    simp only [List.not_mem_nil, false_and, exists_false, or_false]
    omega

theorem passPieces_pairwise {t : MapLine} {seeds : Range}
    (hwf : t.src.start ≤ t.src.stop) :
    List.Pairwise (fun a b => ∀ x : Nat, ¬(memR x a ∧ memR x b))
      (interPiece t seeds :: passPieces t seeds) := by
  unfold passPieces
  by_cases hl : seeds.start < t.src.start <;> by_cases hr : t.src.stop < seeds.stop
  · rw [if_pos hl, if_pos hr, List.singleton_append]
    refine List.Pairwise.cons ?_ (List.Pairwise.cons ?_ (List.pairwise_singleton _ _))
    · intro b hb
      rcases List.mem_cons.mp hb with rfl | hb
      · exact disjoint_ranges (Or.inr (le_max_right _ _))
      · rcases List.mem_singleton.mp hb with rfl
        exact disjoint_ranges (Or.inl (min_le_right _ _))
    · intro b hb
      rcases List.mem_singleton.mp hb with rfl
      exact disjoint_ranges (Or.inl hwf)
  · rw [if_pos hl, if_neg hr, List.append_nil]
    refine List.Pairwise.cons ?_ (List.pairwise_singleton _ _)
    intro b hb
    rcases List.mem_singleton.mp hb with rfl
    exact disjoint_ranges (Or.inr (le_max_right _ _))
  · rw [if_neg hl, if_pos hr, List.nil_append]
    refine List.Pairwise.cons ?_ (List.pairwise_singleton _ _)
    intro b hb
    rcases List.mem_singleton.mp hb with rfl
    exact disjoint_ranges (Or.inl (min_le_right _ _))
  · rw [if_neg hl, if_neg hr, List.append_nil]
    exact List.pairwise_singleton _ _

/-- C2: for a rule with source and destination ranges of equal length and a
seed range overlapping the source, `try_translate` returns `Some` list in
which exactly one entry is ready and equals the intersection of the seed
range with the source, shifted by `dst.start - src.start` (via
`adjust_range`); every other entry is a not-ready sub-range of the seed range
lying outside the source, and those entries, together with the (unshifted)
intersection, partition the seed range. -/
theorem claim2_split_partition :
    ∀ (t : MapLine) (seeds : Range) (s d l : Nat),
      t.src = ⟨s, s + l⟩ → t.dst = ⟨d, d + l⟩ → overlaps t seeds →
      ∃ changed, t.try_translate seeds = .ok (some changed) ∧
        adjust_range (interPiece t seeds) (offsetOf t) = .ok (shiftPiece t seeds) ∧
        trueRanges changed = [shiftPiece t seeds] ∧
        (∀ p ∈ changed, p.2 = false →
          seeds.start ≤ p.1.start ∧ p.1.stop ≤ seeds.stop ∧
            (p.1.stop ≤ t.src.start ∨ t.src.stop ≤ p.1.start)) ∧
        (falseRanges changed).Perm (passPieces t seeds) ∧
        (∀ x : Nat, memR x seeds ↔
          (memR x (interPiece t seeds) ∨ ∃ q ∈ passPieces t seeds, memR x q)) ∧
        List.Pairwise (fun a b => ∀ x : Nat, ¬(memR x a ∧ memR x b))
          (interPiece t seeds :: passPieces t seeds) := by
  intro t seeds s d l hsrc hdst hov
  have hwf : t.src.start ≤ t.src.stop := by
    rw [hsrc]
    exact Nat.le_add_right s l
  have hadj := adjust_inter_ok hwf hov
  cases htt : t.try_translate seeds with
  | error e =>
    obtain ⟨-, -, ha⟩ := try_translate_error_spec htt
    rw [hadj] at ha
    cases ha
  | ok o =>
    cases o with
    | none =>
      exact absurd ((try_translate_ok_none_iff t seeds).mp htt) (not_not_intro hov)
    | some changed =>
      obtain ⟨-, rr, hadj2, htr, hfr⟩ := try_translate_components htt
      have hrr : rr = shiftPiece t seeds := by
        rw [hadj] at hadj2
        exact (Except.ok.inj hadj2).symm
      subst hrr
      refine ⟨changed, rfl, hadj, htr, ?_, hfr, passPieces_cover hov,
        passPieces_pairwise hwf⟩
      intro p hp hpf
      exact passPieces_bounds hov p.1 (hfr.subset (mem_falseRanges hp hpf))

theorem claim2_witness :
    ∃ changed, MapLine.try_translate ⟨⟨50, 52⟩, ⟨98, 100⟩⟩ ⟨96, 99⟩ =
      .ok (some changed) ∧
      trueRanges changed = [shiftPiece ⟨⟨50, 52⟩, ⟨98, 100⟩⟩ ⟨96, 99⟩] := by
  obtain ⟨changed, h1, -, h3, -⟩ :=
    claim2_split_partition ⟨⟨50, 52⟩, ⟨98, 100⟩⟩ ⟨96, 99⟩ 98 50 2 rfl rfl
      (by decide)
  exact ⟨changed, h1, h3⟩

end Day05

namespace Day05

/-- One step of the `min_by_key` fold. -/
def minStep (best x : Range) : Range :=
  if min x.start x.stop < min best.start best.stop then x else best

theorem min_by_key_cons (r0 : Range) (rest : List Range) :
    min_by_key (r0 :: rest) = some (rest.foldl minStep r0) := rfl

theorem min_fold_spec (rest : List Range) : ∀ (b : Range),
    (rest.foldl minStep b = b ∨ rest.foldl minStep b ∈ rest) ∧
    min (rest.foldl minStep b).start (rest.foldl minStep b).stop ≤
      min b.start b.stop ∧
    ∀ x ∈ rest, min (rest.foldl minStep b).start (rest.foldl minStep b).stop ≤
      min x.start x.stop := by
  induction rest with
  | nil =>
    intro b
    exact ⟨Or.inl rfl, le_rfl, fun x hx => absurd hx (List.not_mem_nil x)⟩
  | cons y ys ih =>
    intro b
    rw [List.foldl_cons]
    by_cases hc : min y.start y.stop < min b.start b.stop
    · rw [minStep, if_pos hc]
      obtain ⟨h1, h2, h3⟩ := ih y
      refine ⟨?_, by omega, ?_⟩
      · rcases h1 with h | h
        · right
          rw [h]
          exact List.mem_cons_self _ _
        · right
          exact List.mem_cons_of_mem _ h
      · intro x hx
        rcases List.mem_cons.mp hx with rfl | hx
        · exact h2
        · exact h3 x hx
    · rw [minStep, if_neg hc]
      obtain ⟨h1, h2, h3⟩ := ih b
      refine ⟨?_, h2, ?_⟩
      · rcases h1 with h | h
        · exact Or.inl h
        · exact Or.inr (List.mem_cons_of_mem _ h)
      · intro x hx
        rcases List.mem_cons.mp hx with rfl | hx
        · omega
        · exact h3 x hx

/-- `min_by_key` on a nonempty list returns an element whose key
`min start stop` is minimal. -/
theorem min_by_key_spec (l : List Range) (hl : l ≠ []) :
    ∃ r, min_by_key l = some r ∧ r ∈ l ∧
      ∀ x ∈ l, min r.start r.stop ≤ min x.start x.stop := by
  cases l with
  | nil => exact absurd rfl hl
  | cons r0 rest =>
    obtain ⟨h1, h2, h3⟩ := min_fold_spec rest r0
    refine ⟨rest.foldl minStep r0, min_by_key_cons r0 rest, ?_, ?_⟩
    · rcases h1 with h | h
      · rw [h]
        exact List.mem_cons_self _ _
      · exact List.mem_cons_of_mem _ h
    · intro x hx
      rcases List.mem_cons.mp hx with rfl | hx
      · exact h2
      · exact h3 x hx

/-- C7: when the chain of maps applied by `solve` returns, `solve` panics
(`panic!`, no recovery) exactly if the total covered length changed;
otherwise — the final list being nonempty and its ranges well-formed — it
returns the minimum start value among the final ranges. -/
theorem claim7_solve_spec :
    ∀ (seeds : List Range) (maps : List Map) (final : List Range),
      List.foldlM (fun s (map : Map) => map.translate s) seeds maps = .ok final →
      ((sum_len final ≠ sum_len seeds →
          solve seeds maps = .error Crash.seedCountMismatch) ∧
        (sum_len final = sum_len seeds → final ≠ [] →
          (∀ r ∈ final, r.start ≤ r.stop) →
          ∃ v, solve seeds maps = .ok v ∧ v ∈ final.map Range.start ∧
            ∀ r ∈ final, v ≤ r.start)) := by
  intro seeds maps final h
  have hsolve : solve seeds maps =
      (if sum_len seeds ≠ sum_len final then .error Crash.seedCountMismatch
       else
         match min_by_key final with
         | none => .error Crash.noRanges
         | some r => .ok r.start) := by
    unfold solve
    rw [h]
    rfl
  constructor
  · intro hne
    rw [hsolve, if_pos (by omega)]
  · intro heq hne hwf
    obtain ⟨r, hmin, hrmem, hrle⟩ := min_by_key_spec final hne
    refine ⟨r.start, ?_, List.mem_map_of_mem _ hrmem, ?_⟩
    · rw [hsolve, if_neg (by omega), hmin]
    · intro x hx
      have hle := hrle x hx
      have ha := hwf r hrmem
      have hb := hwf x hx
      omega

theorem claim7_witness :
    (solve [⟨0, 10⟩] [⟨[⟨⟨7, 7⟩, ⟨5, 3⟩⟩]⟩] = .error Crash.seedCountMismatch) ∧
    (∃ v, solve [⟨5, 7⟩] [] = .ok v ∧ v ∈ [(⟨5, 7⟩ : Range)].map Range.start ∧
      ∀ r ∈ [(⟨5, 7⟩ : Range)], v ≤ r.start) := by
  have h1 : List.foldlM (fun s (map : Map) => map.translate s) [⟨0, 10⟩]
      [⟨[⟨⟨7, 7⟩, ⟨5, 3⟩⟩]⟩] = .ok [⟨7, 5⟩, ⟨3, 10⟩, ⟨0, 5⟩] := by
    rw [List.foldlM_cons]
    have htr : Map.translate ⟨[⟨⟨7, 7⟩, ⟨5, 3⟩⟩]⟩ [⟨0, 10⟩] =
        .ok [⟨7, 5⟩, ⟨3, 10⟩, ⟨0, 5⟩] := @translate_loop_of_fuel _ 40 _ _ _ rfl
    rw [htr]
    rfl
  have h2 : List.foldlM (fun s (map : Map) => map.translate s) [⟨5, 7⟩] [] =
      .ok [⟨5, 7⟩] := rfl
  exact ⟨(claim7_solve_spec _ _ _ h1).1 (by decide),
    (claim7_solve_spec _ _ _ h2).2 rfl (by decide) (by decide)⟩

/-- The pass-through pieces of a split are disjoint from the splitting
rule's source range. -/
theorem passPieces_outside_src (t : MapLine) (seeds : Range) :
    ∀ q ∈ passPieces t seeds, q.stop ≤ t.src.start ∨ t.src.stop ≤ q.start := by
  intro q hq
  unfold passPieces at hq
  rw [List.mem_append] at hq
  rcases hq with hq | hq <;>
    · split at hq
      · rcases List.mem_singleton.mp hq with rfl
        first
          | exact Or.inl le_rfl
          | exact Or.inr le_rfl
      · simp at hq

/-- C9: within one map, each popped seed range is translated by at most one
rule — the first rule in table order whose source overlaps it; once a rule
translates, the rest are skipped, the single ready piece goes to the output,
and only pass-through remainders — each disjoint from that rule's source —
are pushed back onto the seed stack. -/
theorem claim9_first_rule_only :
    ∀ (m : List MapLine) (seeds : Range) (stack out s o : List Range) (w : Bool),
      translator_loop m seeds stack out false = .ok (s, o, w) →
      ((m.find? (fun t => decide (overlaps t seeds)) = none →
          (s, o, w) = (stack, out, false)) ∧
        (∀ t, m.find? (fun t => decide (overlaps t seeds)) = some t →
          w = true ∧
            ∃ changed, t.try_translate seeds = .ok (some changed) ∧
              o = out ++ trueRanges changed ∧
              (trueRanges changed).length = 1 ∧
              s = (falseRanges changed).reverse ++ stack ∧
              ∀ q ∈ falseRanges changed,
                q.stop ≤ t.src.start ∨ t.src.stop ≤ q.start)) := by
  intro m seeds stack out s o w h
  rcases translator_loop_spec m seeds stack out with ⟨hf, he⟩ |
    ⟨t', changed, hf, htt, he⟩ | ⟨t', e, hf, htt, he⟩
  · constructor
    · intro _
      rw [he] at h
      simp only [Except.ok.injEq, Prod.mk.injEq] at h
      obtain ⟨h1, h2, h3⟩ := h
      rw [h1, h2, h3]
    · intro t hft
      rw [hf] at hft
      cases hft
  · constructor
    · intro hfn
      rw [hfn] at hf
      cases hf
    · intro t hft
      rw [hf] at hft
      have ht : t' = t := Option.some.inj hft
      subst ht
      rw [he] at h
      simp only [Except.ok.injEq, Prod.mk.injEq] at h
      obtain ⟨h1, h2, h3⟩ := h
      obtain ⟨-, rr, -, htr, hfr⟩ := try_translate_components htt
      refine ⟨h3.symm, changed, htt, h2.symm, by rw [htr]; rfl, h1.symm, ?_⟩
      intro q hq
      exact passPieces_outside_src t' seeds q (hfr.subset hq)
  · rw [he] at h
    cases h

theorem claim9_witness :
    (true : Bool) = true ∧
      ∃ changed, MapLine.try_translate ⟨⟨50, 52⟩, ⟨98, 100⟩⟩ ⟨96, 99⟩ =
        .ok (some changed) ∧
        ([(⟨50, 51⟩ : Range)]) = [] ++ trueRanges changed ∧
        (trueRanges changed).length = 1 ∧
        ([(⟨96, 98⟩ : Range)]) = (falseRanges changed).reverse ++ [] ∧
        ∀ q ∈ falseRanges changed, q.stop ≤ 98 ∨ 100 ≤ q.start :=
  (claim9_first_rule_only [⟨⟨50, 52⟩, ⟨98, 100⟩⟩] ⟨96, 99⟩ [] []
    [⟨96, 98⟩] [⟨50, 51⟩] true rfl).2 ⟨⟨50, 52⟩, ⟨98, 100⟩⟩ rfl

end Day05

namespace Day05

/-- Interval disjointness of the source ranges of two rules. -/
def disjRules (a b : MapLine) : Prop :=
  a.src.stop ≤ b.src.start ∨ b.src.stop ≤ a.src.start

theorem disjRules_symm : Symmetric disjRules := by
  intro a b h
  exact h.symm

/-- Splitting a seed range by rule `b` first and re-processing, or by rule
`a` first, yields the same multiset, when `a`'s source lies entirely left
of `b`'s source and both overlap the seed range.  The two `hg` hypotheses
re-expand the one piece of each split that the other rule still overlaps
(they are discharged by induction on the range length at the use site). -/
theorem diamond_core {L : List MapLine} (a b : MapLine) (r : Range)
    (hgA : (gOf L ⟨r.start, b.src.start⟩).Perm
      (shiftPiece a ⟨r.start, b.src.start⟩ ::
        (passPieces a ⟨r.start, b.src.start⟩).flatMap (gOf L)))
    (hgB : (gOf L ⟨a.src.stop, r.stop⟩).Perm
      (shiftPiece b ⟨a.src.stop, r.stop⟩ ::
        (passPieces b ⟨a.src.stop, r.stop⟩).flatMap (gOf L)))
    (hane : a.src.start < a.src.stop) (hbne : b.src.start < b.src.stop)
    (hord : a.src.stop ≤ b.src.start)
    (hova : overlaps a r) (hovb : overlaps b r) :
    (shiftPiece b r :: (passPieces b r).flatMap (gOf L)).Perm
      (shiftPiece a r :: (passPieces a r).flatMap (gOf L)) := by
  obtain ⟨hova1, hova2⟩ := hova
  obtain ⟨hovb1, hovb2⟩ := hovb
  have hP1 : passPieces b r = ⟨r.start, b.src.start⟩ ::
      (if b.src.stop < r.stop then [⟨b.src.stop, r.stop⟩] else []) := by
    unfold passPieces
    rw [if_pos (by omega), List.singleton_append]
  have hP2 : passPieces a r =
      (if r.start < a.src.start then [⟨r.start, a.src.start⟩] else []) ++
        [⟨a.src.stop, r.stop⟩] := by
    have hss : a.src.stop < r.stop := by omega
    unfold passPieces
    rw [if_pos hss]
  have hPA : passPieces a ⟨r.start, b.src.start⟩ =
      (if r.start < a.src.start then [⟨r.start, a.src.start⟩] else []) ++
        (if a.src.stop < b.src.start then [⟨a.src.stop, b.src.start⟩] else []) := rfl
  have hPB : passPieces b ⟨a.src.stop, r.stop⟩ =
      (if a.src.stop < b.src.start then [⟨a.src.stop, b.src.start⟩] else []) ++
        (if b.src.stop < r.stop then [⟨b.src.stop, r.stop⟩] else []) := rfl
  have hS5 : shiftPiece a ⟨r.start, b.src.start⟩ = shiftPiece a r := by
    have h2 : min b.src.start a.src.stop = min r.stop a.src.stop := by omega
    show (⟨max r.start a.src.start - a.src.start + a.dst.start,
        min b.src.start a.src.stop - a.src.start + a.dst.start⟩ : Range) =
      ⟨max r.start a.src.start - a.src.start + a.dst.start,
        min r.stop a.src.stop - a.src.start + a.dst.start⟩
    rw [h2]
  have hS6 : shiftPiece b ⟨a.src.stop, r.stop⟩ = shiftPiece b r := by
    have h1 : max a.src.stop b.src.start = max r.start b.src.start := by omega
    show (⟨max a.src.stop b.src.start - b.src.start + b.dst.start,
        min r.stop b.src.stop - b.src.start + b.dst.start⟩ : Range) =
      ⟨max r.start b.src.start - b.src.start + b.dst.start,
        min r.stop b.src.stop - b.src.start + b.dst.start⟩
    rw [h1]
  rw [hS5, hPA] at hgA
  rw [hS6, hPB] at hgB
  set aH : List Range :=
    if r.start < a.src.start then [⟨r.start, a.src.start⟩] else [] with haH
  set mid : List Range :=
    if a.src.stop < b.src.start then [⟨a.src.stop, b.src.start⟩] else [] with hmid
  set bT : List Range :=
    if b.src.stop < r.stop then [⟨b.src.stop, r.stop⟩] else [] with hbT
  rw [hP1, hP2, List.flatMap_cons, List.flatMap_append, List.flatMap_singleton]
  have hleft : (gOf L ⟨r.start, b.src.start⟩ ++ bT.flatMap (gOf L)).Perm
      (shiftPiece a r :: (aH.flatMap (gOf L) ++ (mid.flatMap (gOf L) ++ bT.flatMap (gOf L)))) := by
    have h1 := hgA.append_right (bT.flatMap (gOf L))
    rw [List.cons_append, List.flatMap_append, List.append_assoc] at h1
    exact h1
  have hright : (aH.flatMap (gOf L) ++ gOf L ⟨a.src.stop, r.stop⟩).Perm
      (shiftPiece b r :: (aH.flatMap (gOf L) ++ (mid.flatMap (gOf L) ++ bT.flatMap (gOf L)))) := by
    have h2 := List.Perm.append_left (aH.flatMap (gOf L)) hgB
    have h3 := @List.perm_middle Range (shiftPiece b r) (aH.flatMap (gOf L))
      ((mid ++ bT).flatMap (gOf L))
    have h4 := h2.trans h3
    rw [List.flatMap_append] at h4
    exact h4
  exact (List.Perm.cons _ hleft).trans
    ((List.Perm.swap (shiftPiece a r) (shiftPiece b r) _).trans
      (List.Perm.cons _ hright).symm)

end Day05

namespace Day05

instance : DecidableRel disjRules := fun a b => by
  unfold disjRules
  infer_instance

theorem overlaps_mk (t : MapLine) (x y : Nat) :
    overlaps t ⟨x, y⟩ ↔ (t.src.start < y ∧ x < t.src.stop) := Iff.rfl

/-- One perm-level unfolding of `gOf`: the first overlapping rule produces
its shifted intersection plus the recursive results on its pass pieces. -/
theorem gOf_first_perm {m : List MapLine} (hwf : ∀ t ∈ m, t.src.start ≤ t.src.stop)
    {seeds : Range} {t : MapLine}
    (hfind : m.find? (fun t => decide (overlaps t seeds)) = some t) :
    (gOf m seeds).Perm (shiftPiece t seeds :: (passPieces t seeds).flatMap (gOf m)) := by
  have hov : overlaps t seeds := by
    have hp := List.find?_some hfind
    simpa using hp
  have hwft := hwf t (List.mem_of_find?_eq_some hfind)
  cases htt : t.try_translate seeds with
  | error e => exact absurd htt (try_translate_wf_no_error hwft e)
  | ok o =>
    cases o with
    | none =>
      exact absurd ((try_translate_ok_none_iff t seeds).mp htt) (not_not_intro hov)
    | some changed =>
      rw [gOf_first hwf hfind htt]
      obtain ⟨-, rr, hadj, htr, hfr⟩ := try_translate_components htt
      have hrr : shiftPiece t seeds = rr := by
        rw [adjust_inter_ok hwft hov] at hadj
        exact Except.ok.inj hadj
      rw [htr, ← hrr, List.singleton_append]
      refine List.Perm.cons _ ?_
      have hrev : ((falseRanges changed).reverse).Perm (passPieces t seeds) :=
        ((falseRanges changed).reverse_perm).trans hfr
      exact hrev.flatMap_right (gOf m)

/-- Under pairwise-disjoint nonempty sources, `gOf` can be unfolded along
ANY overlapping rule, not just the first one in table order. -/
theorem pick_any {L : List MapLine}
    (hwf : ∀ t ∈ L, t.src.start < t.src.stop)
    (hdisj : L.Pairwise disjRules) :
    ∀ (n : Nat) (r : Range) (t : MapLine), r.len ≤ n → t ∈ L → overlaps t r →
      (gOf L r).Perm (shiftPiece t r :: (passPieces t r).flatMap (gOf L)) := by
  have hwfle : ∀ t ∈ L, t.src.start ≤ t.src.stop := fun t ht => le_of_lt (hwf t ht)
  intro n
  induction n using Nat.strong_induction_on with
  | _ n ih =>
    intro r t hlen htmem hov
    obtain ⟨t', hfind⟩ : ∃ t', L.find? (fun t => decide (overlaps t r)) = some t' := by
      cases hf : L.find? (fun t => decide (overlaps t r)) with
      | some t' => exact ⟨t', rfl⟩
      | none =>
        rw [List.find?_eq_none] at hf
        exact absurd (decide_eq_true hov) (hf t htmem)
    have hbase := gOf_first_perm hwfle hfind
    by_cases hteq : t' = t
    · rw [hteq] at hbase
      exact hbase
    · have hov' : overlaps t' r := by
        have hp := List.find?_some hfind
        simpa using hp
      have ht'mem := List.mem_of_find?_eq_some hfind
      have hd : disjRules t' t := hdisj.forall disjRules_symm ht'mem htmem hteq
      obtain ⟨hov1, hov2⟩ := hov
      obtain ⟨hov1', hov2'⟩ := hov'
      have hane := hwf t' ht'mem
      have hbne := hwf t htmem
      rcases hd with hd | hd
      · -- t' entirely left of t; split by t' is the base, split by t the goal
        have hAlen : (⟨r.start, t.src.start⟩ : Range).len < r.len := by
          simp only [Range.len]
          omega
        have hBlen : (⟨t'.src.stop, r.stop⟩ : Range).len < r.len := by
          simp only [Range.len]
          omega
        have hovA : overlaps t' (⟨r.start, t.src.start⟩ : Range) :=
          (overlaps_mk t' r.start t.src.start).mpr ⟨by omega, by omega⟩
        have hovB : overlaps t (⟨t'.src.stop, r.stop⟩ : Range) :=
          (overlaps_mk t t'.src.stop r.stop).mpr ⟨by omega, by omega⟩
        have hgA := ih (⟨r.start, t.src.start⟩ : Range).len (by omega)
          ⟨r.start, t.src.start⟩ t' le_rfl ht'mem hovA
        have hgB := ih (⟨t'.src.stop, r.stop⟩ : Range).len (by omega)
          ⟨t'.src.stop, r.stop⟩ t le_rfl htmem hovB
        have hdia := diamond_core t' t r hgA hgB hane hbne hd
          ⟨hov1', hov2'⟩ ⟨hov1, hov2⟩
        exact hbase.trans hdia.symm
      · -- t entirely left of t'
        have hAlen : (⟨r.start, t'.src.start⟩ : Range).len < r.len := by
          simp only [Range.len]
          omega
        have hBlen : (⟨t.src.stop, r.stop⟩ : Range).len < r.len := by
          simp only [Range.len]
          omega
        have hovA : overlaps t (⟨r.start, t'.src.start⟩ : Range) :=
          (overlaps_mk t r.start t'.src.start).mpr ⟨by omega, by omega⟩
        have hovB : overlaps t' (⟨t.src.stop, r.stop⟩ : Range) :=
          (overlaps_mk t' t.src.stop r.stop).mpr ⟨by omega, by omega⟩
        have hgA := ih (⟨r.start, t'.src.start⟩ : Range).len (by omega)
          ⟨r.start, t'.src.start⟩ t le_rfl htmem hovA
        have hgB := ih (⟨t.src.stop, r.stop⟩ : Range).len (by omega)
          ⟨t.src.stop, r.stop⟩ t' le_rfl ht'mem hovB
        have hdia := diamond_core t t' r hgA hgB hbne hane hd
          ⟨hov1, hov2⟩ ⟨hov1', hov2'⟩
        exact hbase.trans hdia

/-- Under pairwise-disjoint nonempty sources, the per-range result of one
map is the same multiset for any ordering of the rules. -/
theorem gOf_perm {L LP : List MapLine} (hperm : L.Perm LP)
    (hwf : ∀ t ∈ L, t.src.start < t.src.stop)
    (hdisj : L.Pairwise disjRules) :
    ∀ (n : Nat) (r : Range), r.len ≤ n → (gOf L r).Perm (gOf LP r) := by
  have hwfP : ∀ t ∈ LP, t.src.start < t.src.stop :=
    fun t ht => hwf t (hperm.symm.subset ht)
  have hdisjP : LP.Pairwise disjRules :=
    (hperm.pairwise_iff (fun h => disjRules_symm h)).mp hdisj
  intro n
  induction n using Nat.strong_induction_on with
  | _ n ih =>
    intro r hlen
    cases hfind : L.find? (fun t => decide (overlaps t r)) with
    | none =>
      have hnone : LP.find? (fun t => decide (overlaps t r)) = none := by
        rw [List.find?_eq_none] at hfind ⊢
        intro t ht
        exact hfind t (hperm.symm.subset ht)
      rw [gOf_no_overlap hfind, gOf_no_overlap hnone]
    | some t =>
      have htL := List.mem_of_find?_eq_some hfind
      have hov : overlaps t r := by
        have hp := List.find?_some hfind
        simpa using hp
      have h1 := pick_any hwf hdisj r.len r t le_rfl htL hov
      have h2 := pick_any hwfP hdisjP r.len r t le_rfl (hperm.subset htL) hov
      refine h1.trans (List.Perm.trans ?_ h2.symm)
      refine List.Perm.cons _ ?_
      refine List.Perm.flatMap_left _ ?_
      intro q hq
      have hqlen : q.len < r.len := passPieces_len_lt hov q hq
      exact ih q.len (by omega) q le_rfl

/-- C6 (amended): for every mapping table whose source ranges are pairwise
disjoint and nonempty, the multiset of ranges produced by `Map::translate`
from a given list of seed ranges is the same for every ordering of the
table's rules. -/
theorem claim6_order_independent :
    ∀ (L LP : List MapLine), L.Perm LP →
      (∀ t ∈ L, t.src.start < t.src.stop) →
      L.Pairwise disjRules →
      ∀ (ranges res resP : List Range),
        Map.translate ⟨L⟩ ranges = .ok res →
        Map.translate ⟨LP⟩ ranges = .ok resP →
        res.Perm resP := by
  intro L LP hperm hwf hdisj ranges res resP h1 h2
  have hwfle : ∀ t ∈ L, t.src.start ≤ t.src.stop := fun t ht => le_of_lt (hwf t ht)
  have hwfleP : ∀ t ∈ LP, t.src.start ≤ t.src.stop :=
    fun t ht => le_of_lt (hwf t (hperm.symm.subset ht))
  unfold Map.translate at h1 h2
  rw [translate_loop_flatMap hwfle] at h1
  rw [translate_loop_flatMap hwfleP] at h2
  have hres : res = ranges.reverse.flatMap (gOf L) := by
    have h := Except.ok.inj h1
    rw [List.nil_append] at h
    exact h.symm
  have hresP : resP = ranges.reverse.flatMap (gOf LP) := by
    have h := Except.ok.inj h2
    rw [List.nil_append] at h
    exact h.symm
  rw [hres, hresP]
  refine List.Perm.flatMap_left _ ?_
  intro r hr
  exact gOf_perm hperm hwf hdisj r.len r le_rfl

/-- C6 counterexample: with two zero-length source ranges at the same spot —
pairwise disjoint as intervals — the order of the rules changes the output
multiset: the first rule in table order translates the empty slice to ITS
destination. -/
theorem claim6_counterexample :
    ([⟨⟨7, 7⟩, ⟨1, 1⟩⟩, ⟨⟨9, 9⟩, ⟨1, 1⟩⟩] : List MapLine).Pairwise disjRules ∧
    ([⟨⟨7, 7⟩, ⟨1, 1⟩⟩, ⟨⟨9, 9⟩, ⟨1, 1⟩⟩] : List MapLine).Perm
      [⟨⟨9, 9⟩, ⟨1, 1⟩⟩, ⟨⟨7, 7⟩, ⟨1, 1⟩⟩] ∧
    Map.translate ⟨[⟨⟨7, 7⟩, ⟨1, 1⟩⟩, ⟨⟨9, 9⟩, ⟨1, 1⟩⟩]⟩ [⟨0, 3⟩] =
      .ok [⟨7, 7⟩, ⟨1, 3⟩, ⟨0, 1⟩] ∧
    Map.translate ⟨[⟨⟨9, 9⟩, ⟨1, 1⟩⟩, ⟨⟨7, 7⟩, ⟨1, 1⟩⟩]⟩ [⟨0, 3⟩] =
      .ok [⟨9, 9⟩, ⟨1, 3⟩, ⟨0, 1⟩] ∧
    ¬ (([⟨7, 7⟩, ⟨1, 3⟩, ⟨0, 1⟩] : List Range).Perm
        [⟨9, 9⟩, ⟨1, 3⟩, ⟨0, 1⟩]) := by
  refine ⟨by decide, List.Perm.swap _ _ _, ?_, ?_, ?_⟩
  · exact @translate_loop_of_fuel _ 30 _ _ _ rfl
  · exact @translate_loop_of_fuel _ 30 _ _ _ rfl
  · intro hp
    exact absurd (hp.subset (List.mem_cons_self _ _)) (by decide)

theorem claim6_witness :
    ([⟨11, 13⟩, ⟨25, 27⟩, ⟨7, 8⟩, ⟨3, 5⟩, ⟨0, 1⟩] : List Range).Perm
      [⟨25, 27⟩, ⟨7, 8⟩, ⟨11, 13⟩, ⟨3, 5⟩, ⟨0, 1⟩] := by
  have h1 : Map.translate ⟨[⟨⟨11, 13⟩, ⟨1, 3⟩⟩, ⟨⟨25, 27⟩, ⟨5, 7⟩⟩]⟩ [⟨0, 8⟩] =
      .ok [⟨11, 13⟩, ⟨25, 27⟩, ⟨7, 8⟩, ⟨3, 5⟩, ⟨0, 1⟩] :=
    @translate_loop_of_fuel _ 7000 _ _ _ rfl
  have h2 : Map.translate ⟨[⟨⟨25, 27⟩, ⟨5, 7⟩⟩, ⟨⟨11, 13⟩, ⟨1, 3⟩⟩]⟩ [⟨0, 8⟩] =
      .ok [⟨25, 27⟩, ⟨7, 8⟩, ⟨11, 13⟩, ⟨3, 5⟩, ⟨0, 1⟩] :=
    @translate_loop_of_fuel _ 7000 _ _ _ rfl
  exact claim6_order_independent _ _ (List.Perm.swap _ _ _) (by decide) (by decide)
    [⟨0, 8⟩] _ _ h1 h2

end Day05


namespace Day05

theorem claim8_witness :
    MapLine.try_translate ⟨⟨50, 52⟩, ⟨98, 100⟩⟩ ⟨96, 99⟩ ≠
      .error Crash.unreachableCode :=
  claim8_unreachable_is_unreachable ⟨⟨50, 52⟩, ⟨98, 100⟩⟩ ⟨96, 99⟩

end Day05
